import Mathlib

/-!
Verification of the Foundry Local adapter (vscode-copilot-chat BYOK provider):
the SSE stream normalizer (foundryLocalEndpoint.ts, openAIEndpoint.ts), the
health prober, version comparison, capability resolution and catalog listing
(foundryLocalProvider.ts and its variants).

The stream normalizer calls the host runtime's JSON.parse and JSON.stringify.
Those are modelled here by an executable parser and printer over List Char for
the JSON fragment the streams use: null, booleans, integer numerals, strings
with the common escapes, arrays and objects.  Model restrictions, each noted
at the definition it concerns: numbers are integers (no fraction, exponent or
unicode escape), and object key order is insertion order throughout (the JS
integer-index key reordering is not modelled).
-/

namespace FoundryLocal

/-- whitespace as JSON and String.prototype.trim treat it (the four ASCII ones). -/
def wsChar (c : Char) : Bool := c = ' ' || c = '\t' || c = '\n' || c = '\r'

/-- split on a separator character, as JS String.split: an empty input gives
one empty piece, and a trailing separator a final empty piece. -/
def splitOnChar (sep : Char) : List Char → List (List Char)
  | [] => [[]]
  | c :: r =>
    if c = sep then [] :: splitOnChar sep r
    else
      match splitOnChar sep r with
      | [] => [[c]]
      | l :: ls => (c :: l) :: ls

/-- join with a separator character, as JS Array.join. -/
def joinChar (sep : Char) : List (List Char) → List Char
  | [] => []
  | [l] => l
  | l :: ls => l ++ sep :: joinChar sep ls

/-- trim both ends, as JS String.prototype.trim on the modelled whitespace. -/
def trimChars (s : List Char) : List Char :=
  ((s.dropWhile wsChar).reverse.dropWhile wsChar).reverse

/-- model of a JavaScript JSON value: the fragment the streams use.  Numbers
are modelled as integers; object fields keep insertion order and may, as a raw
list, repeat a key, though parsing collapses repeats as JS property
assignment does. -/
inductive JsVal where
  | null
  | bool (b : Bool)
  | num (n : Int)
  | str (s : List Char)
  | arr (elems : List JsVal)
  | obj (fields : List (List Char × JsVal))

instance : Inhabited JsVal := ⟨JsVal.null⟩

/-- decimal digit to its character. -/
def digitCh (d : Nat) : Char := Char.ofNat (48 + d)

/-- decimal digits of a natural number, most significant first; fuel-driven so
that it reduces, with fuel n + 1 always sufficient. -/
def natCharsAux : Nat → Nat → List Char → List Char
  | 0, _, acc => acc
  | fuel + 1, n, acc =>
    if n < 10 then digitCh n :: acc
    else natCharsAux fuel (n / 10) (digitCh (n % 10) :: acc)

/-- decimal numeral of a natural number. -/
def natChars (n : Nat) : List Char := natCharsAux (n + 1) n []

/-- decimal numeral of an integer, as JSON.stringify prints an integral number. -/
def intChars (n : Int) : List Char :=
  if n < 0 then '-' :: natChars n.natAbs else natChars n.toNat

/-- escape of one character inside a JSON string, as JSON.stringify writes the
modelled fragment (quote, backslash and the five short control escapes). -/
def escapeChar (c : Char) : List Char :=
  if c = '"' then ['\\', '"']
  else if c = '\\' then ['\\', '\\']
  else if c = '\n' then ['\\', 'n']
  else if c = '\t' then ['\\', 't']
  else if c = '\r' then ['\\', 'r']
  else if c = Char.ofNat 8 then ['\\', 'b']
  else if c = Char.ofNat 12 then ['\\', 'f']
  else [c]

/-- body of a JSON string literal: each character escaped. -/
def escChars (s : List Char) : List Char :=
  s.foldr (fun c acc => escapeChar c ++ acc) []

/-- the keyword the null value prints as. -/
def nullChars : List Char := ['n', 'u', 'l', 'l']

/-- the keyword true prints as. -/
def trueChars : List Char := ['t', 'r', 'u', 'e']

/-- the keyword false prints as. -/
def falseChars : List Char := ['f', 'a', 'l', 's', 'e']

mutual
/-- model of JSON.stringify on the fragment: no whitespace, fields in
insertion order. -/
def serializeV : JsVal → List Char
  | .null => nullChars
  | .bool true => trueChars
  | .bool false => falseChars
  | .num n => intChars n
  | .str s => '"' :: escChars s ++ ['"']
  | .arr [] => ['[', ']']
  | .arr (v :: vs) => '[' :: (serializeV v ++ serializeElems vs) ++ [']']
  | .obj [] => ['{', '}']
  | .obj (m :: ms) => '{' :: (serializeMember m ++ serializeMembers ms) ++ ['}']
/-- the remaining elements of an array, each preceded by a comma. -/
def serializeElems : List JsVal → List Char
  | [] => []
  | v :: vs => ',' :: (serializeV v ++ serializeElems vs)
/-- one object field: quoted key, colon, value. -/
def serializeMember : List Char × JsVal → List Char
  | (k, x) => '"' :: escChars k ++ '"' :: ':' :: serializeV x
/-- the remaining fields of an object, each preceded by a comma. -/
def serializeMembers : List (List Char × JsVal) → List Char
  | [] => []
  | m :: ms => ',' :: (serializeMember m ++ serializeMembers ms)
end

/-- skip leading JSON whitespace. -/
def skipWs : List Char → List Char
  | [] => []
  | c :: r => if wsChar c then skipWs r else c :: r

/-- decimal digit test. -/
def isDigitCh (c : Char) : Bool := 48 ≤ c.toNat && c.toNat ≤ 57

/-- value of one digit character. -/
def digitVal (c : Char) : Nat := c.toNat - 48

/-- value of a digit run, most significant first. -/
def digitsToNat (ds : List Char) : Nat := ds.foldl (fun a c => a * 10 + digitVal c) 0

/-- whether a digit run is a JSON numeral: nonempty and no leading zero
except the numeral 0 itself. -/
def numValid (ds : List Char) : Bool :=
  match ds with
  | [] => false
  | [d] => isDigitCh d
  | d :: _ :: _ => isDigitCh d && d ≠ '0'

/-- read an unsigned JSON integer numeral from the front of the input. -/
def parseNat (s : List Char) : Option (Nat × List Char) :=
  let ds := s.takeWhile isDigitCh
  if numValid ds then some (digitsToNat ds, s.dropWhile isDigitCh) else none

/-- decode of one short escape, as JSON.parse reads a backslash pair.  The
unicode escape form is outside the modelled fragment. -/
def unescape (c : Char) : Option Char :=
  if c = '"' then some '"'
  else if c = '\\' then some '\\'
  else if c = '/' then some '/'
  else if c = 'n' then some '\n'
  else if c = 't' then some '\t'
  else if c = 'r' then some '\r'
  else if c = 'b' then some (Char.ofNat 8)
  else if c = 'f' then some (Char.ofNat 12)
  else none

/-- read a JSON string body after the opening quote, as JSON.parse: raw
control characters are refused, escapes decoded, the closing quote consumed. -/
def parseStr : List Char → Option (List Char × List Char)
  | [] => none
  | c :: r =>
    if c = '"' then some ([], r)
    else if c = '\\' then
      match r with
      | [] => none
      | e :: r₁ =>
        match unescape e with
        | none => none
        | some u =>
          match parseStr r₁ with
          | none => none
          | some (cs, r₂) => some (u :: cs, r₂)
    else if c.toNat < 32 then none
    else
      match parseStr r with
      | none => none
      | some (cs, r₂) => some (c :: cs, r₂)

/-- overwrite of a field by JS property assignment: the first field of that
key keeps its place and takes the new value, a fresh key is appended. -/
def upsert : List (List Char × JsVal) → List Char × JsVal → List (List Char × JsVal)
  | [], kv => [kv]
  | (k', v') :: rest, (k, v) =>
    if k' = k then (k', v) :: rest else (k', v') :: upsert rest (k, v)

/-- collapse of repeated keys as JS object construction does: first position,
last value. -/
def dedupFields (ms : List (List Char × JsVal)) : List (List Char × JsVal) :=
  ms.foldl upsert []

/-- what one parser step is asked to read. -/
inductive PMode where
  | val
  | elems
  | members

/-- what one parser step produced. -/
inductive PRes where
  | v (x : JsVal)
  | es (xs : List JsVal)
  | ms (xs : List (List Char × JsVal))

/-- model of JSON.parse on the fragment, fuel-driven: mode val reads one
value, mode elems the elements of a nonempty array up to the closing bracket,
mode members the fields of a nonempty object up to the closing brace.
Numbers are integer numerals only; a fraction, exponent or unicode escape
makes the parse fail, where the runtime would succeed — inputs using them are
outside the model. -/
def parseCore : Nat → PMode → List Char → Option (PRes × List Char)
  | 0, _, _ => none
  | fuel + 1, .val, s =>
    match skipWs s with
    | [] => none
    | c :: r =>
      if c = 'n' then
        match r with
        | 'u' :: 'l' :: 'l' :: r₁ => some (.v .null, r₁)
        | _ => none
      else if c = 't' then
        match r with
        | 'r' :: 'u' :: 'e' :: r₁ => some (.v (.bool true), r₁)
        | _ => none
      else if c = 'f' then
        match r with
        | 'a' :: 'l' :: 's' :: 'e' :: r₁ => some (.v (.bool false), r₁)
        | _ => none
      else if c = '"' then
        match parseStr r with
        | some (cs, r₁) => some (.v (.str cs), r₁)
        | none => none
      else if c = '[' then
        match skipWs r with
        | [] => none
        | d :: r₁ =>
          if d = ']' then some (.v (.arr []), r₁)
          else
            match parseCore fuel .elems (d :: r₁) with
            | some (.es xs, r₂) => some (.v (.arr xs), r₂)
            | _ => none
      else if c = '{' then
        match skipWs r with
        | [] => none
        | d :: r₁ =>
          if d = '}' then some (.v (.obj []), r₁)
          else
            match parseCore fuel .members (d :: r₁) with
            | some (.ms xs, r₂) => some (.v (.obj (dedupFields xs)), r₂)
            | _ => none
      else if c = '-' then
        match parseNat r with
        | some (n, r₁) => some (.v (.num (-(n : Int))), r₁)
        | none => none
      else if isDigitCh c then
        match parseNat (c :: r) with
        | some (n, r₁) => some (.v (.num (n : Int)), r₁)
        | none => none
      else none
  | fuel + 1, .elems, s =>
    match parseCore fuel .val s with
    | some (.v x, r) =>
      (match skipWs r with
       | [] => none
       | d :: r₁ =>
         if d = ',' then
           match parseCore fuel .elems r₁ with
           | some (.es xs, r₂) => some (.es (x :: xs), r₂)
           | _ => none
         else if d = ']' then some (.es [x], r₁)
         else none)
    | _ => none
  | fuel + 1, .members, s =>
    match skipWs s with
    | [] => none
    | q :: r =>
      if q = '"' then
        match parseStr r with
        | none => none
        | some (k, r₁) =>
          match skipWs r₁ with
          | [] => none
          | col :: r₂ =>
            if col = ':' then
              match parseCore fuel .val r₂ with
              | some (.v x, r₃) =>
                (match skipWs r₃ with
                 | [] => none
                 | d :: r₄ =>
                   if d = ',' then
                     match parseCore fuel .members r₄ with
                     | some (.ms xs, r₅) => some (.ms ((k, x) :: xs), r₅)
                     | _ => none
                   else if d = '}' then some (.ms [(k, x)], r₄)
                   else none)
              | _ => none
            else none
      else none

/-- model of JSON.parse: one value, then nothing but whitespace.  The fuel
length + 1 covers every input of the fragment, two fuel units per bracket pair
being paid for by its two characters. -/
def parseJson (s : List Char) : Option JsVal :=
  match parseCore (s.length + 1) .val s with
  | some (.v x, r) => if skipWs r = [] then some x else none
  | _ => none

/-- truthiness of a JS value, as an if condition reads it.  NaN does not
arise in the integer fragment. -/
def jsTruthy : JsVal → Bool
  | .null => false
  | .bool b => b
  | .num n => !(n == 0)
  | .str s => !(s.isEmpty)
  | .arr _ => true
  | .obj _ => true

/-- truthiness of a property read: an absent property is undefined, falsy. -/
def truthyOpt : Option JsVal → Bool
  | none => false
  | some v => jsTruthy v

/-- value of the first field of a key; parsed objects hold each key once. -/
def lookupKey {α : Type} : List (List Char × α) → List Char → Option α
  | [], _ => none
  | (k', v) :: rest, k => if k' = k then some v else lookupKey rest k

/-- property read on a JS value: only objects have modelled properties. -/
def getField : JsVal → List Char → Option JsVal
  | .obj ms, k => lookupKey ms k
  | _, _ => none

/-- property write into a field list: value replaced in place, a fresh key
appended. -/
def setKey : List (List Char × JsVal) → List Char → JsVal → List (List Char × JsVal)
  | [], k, x => [(k, x)]
  | (k', v) :: rest, k, x =>
    if k' = k then (k', x) :: rest else (k', v) :: setKey rest k x

/-- property assignment on a JS value. -/
def setField (v : JsVal) (k : List Char) (x : JsVal) : JsVal :=
  match v with
  | .obj ms => .obj (setKey ms k x)
  | _ => v

/-- removal of a key, as the rest-spread that omits one destructured name. -/
def removeField (v : JsVal) (k : List Char) : JsVal :=
  match v with
  | .obj ms => .obj (ms.filter fun p => p.1 ≠ k)
  | _ => v

/-- characters the modelled string escape set covers: printable or one of
the five short-escaped controls.  Values parsed from the fragment satisfy
this everywhere. -/
def goodChar (c : Char) : Bool :=
  32 ≤ c.toNat || c = '\n' || c = '\t' || c = '\r' || c = Char.ofNat 8 || c = Char.ofNat 12

/-- a string whose characters the escape set covers. -/
def goodStr (s : List Char) : Bool := s.all goodChar

mutual
/-- a value the printer and parser treat as exact inverses: strings within
the escape set, object keys distinct at every level. -/
def goodV : JsVal → Bool
  | .null => true
  | .bool _ => true
  | .num _ => true
  | .str s => goodStr s
  | .arr vs => goodElems vs
  | .obj ms => decide (ms.map Prod.fst).Nodup && goodMembers ms
/-- goodness of an element list. -/
def goodElems : List JsVal → Bool
  | [] => true
  | v :: vs => goodV v && goodElems vs
/-- goodness of a field list: keys within the escape set, values good. -/
def goodMembers : List (List Char × JsVal) → Bool
  | [] => true
  | (k, x) :: ms => goodStr k && goodV x && goodMembers ms
end

mutual
/-- fuel the parser spends on one value: one step, plus the deepest chain a
container's members demand. -/
def needV : JsVal → Nat
  | .null => 1
  | .bool _ => 1
  | .num _ => 1
  | .str _ => 1
  | .arr vs => 1 + needElems vs
  | .obj ms => 1 + needMembers ms
/-- fuel the element loop spends: one step per element plus its value. -/
def needElems : List JsVal → Nat
  | [] => 0
  | v :: vs => 1 + max (needV v) (needElems vs)
/-- fuel the member loop spends. -/
def needMembers : List (List Char × JsVal) → Nat
  | [] => 0
  | (_, x) :: ms => 1 + max (needV x) (needMembers ms)
end

/-- the event line marker, the six characters the code tests with startsWith
and strips with substring. -/
def dataMark : List Char := ['d', 'a', 't', 'a', ':', ' ']

/-- the terminal sentinel payload. -/
def doneBody : List Char := ['[', 'D', 'O', 'N', 'E', ']']

/-- the terminal sentinel line. -/
def doneLine : List Char := dataMark ++ doneBody

/-- the choices key. -/
def choicesKey : List Char := ['c', 'h', 'o', 'i', 'c', 'e', 's']

/-- the delta key. -/
def deltaKey : List Char := ['d', 'e', 'l', 't', 'a']

/-- the message key. -/
def messageKey : List Char := ['m', 'e', 's', 's', 'a', 'g', 'e']

/-- one choice under _transformSSEData (foundryLocalEndpoint.ts:420-428): the
JS test choice.delta && choice.message is truthiness of the two property
reads, the rest-spread removes message; reading a property of a null choice
raises a TypeError, answered here by none, which the caller's catch turns
into keeping the whole line. -/
def sseChoice : JsVal → Option JsVal
  | .null => none
  | c =>
    if truthyOpt (getField c deltaKey) && truthyOpt (getField c messageKey) then
      some (removeField c messageKey)
    else some c

/-- one line under _transformSSEData (foundryLocalEndpoint.ts:412-440): a
line without the data mark, the sentinel line, and an unparsable payload pass
through; reading choices on a parsed null raises a TypeError into the inner
catch, which keeps the line; any other parsed payload is re-emitted from
JSON.stringify, its choices array, when it is one, mapped through
sseChoice. -/
def sseTransformLine (line : List Char) : List Char :=
  if dataMark.isPrefixOf line ∧ line ≠ doneLine then
    match parseJson (line.drop 6) with
    | none => line
    | some .null => line
    | some v =>
      match getField v choicesKey with
      | some (.arr cs) =>
        match cs.mapM sseChoice with
        | some cs' => dataMark ++ serializeV (setField v choicesKey (.arr cs'))
        | none => line
      | _ => dataMark ++ serializeV v
  else line

/-- _transformSSEData (foundryLocalEndpoint.ts:407-449): split on newline,
transform each line, join with newline. -/
def transformSSEData (data : List Char) : List Char :=
  joinChar '\n' ((splitOnChar '\n' data).map sseTransformLine)

/-- index properties of a string, which is what a JS object rest-spread
collects from a primitive string. -/
def strIndexFields (s : List Char) : List (List Char × JsVal) :=
  s.enum.map fun p => (natChars p.1, .str [p.2])

/-- index properties of an array, which is what a JS object rest-spread
collects from an array value: each element keyed by its printed index. -/
def arrIndexFields (vs : List JsVal) : List (List Char × JsVal) :=
  vs.enum.map fun p => (natChars p.1, p.2)

/-- one choice under transformFoundryLocalStream (openAIEndpoint.ts:130-134):
the rest-spread removes message from every object choice unconditionally; on
null it raises, on a string or an array it collects the index properties
(none of which is the message key), on another primitive it collects
nothing. -/
def openAIChoice : JsVal → Option JsVal
  | .null => none
  | .obj ms => some (.obj (ms.filter fun p => p.1 ≠ messageKey))
  | .str s => some (.obj (strIndexFields s))
  | .arr vs => some (.obj (arrIndexFields vs))
  | _ => some (.obj [])

/-- one complete line under transformFoundryLocalStream
(openAIEndpoint.ts:113-143): a line without the data mark passes through, the
payload is trimmed, a sentinel payload keeps the line, an unparsable payload
keeps the line, reading choices on a parsed null raises into the catch which
keeps the line, and any other parsed payload is re-emitted with every choice
swept by openAIChoice. -/
def openAITransformLine (line : List Char) : List Char :=
  if dataMark.isPrefixOf line then
    let d := trimChars (line.drop 6)
    if d = doneBody then line
    else
      match parseJson d with
      | none => line
      | some .null => line
      | some v =>
        match getField v choicesKey with
        | some (.arr cs) =>
          match cs.mapM openAIChoice with
          | some cs' => dataMark ++ serializeV (setField v choicesKey (.arr cs'))
          | none => line
        | _ => dataMark ++ serializeV v
  else line

/-- the stream body of transformFoundryLocalStream (openAIEndpoint.ts:103-153)
as a function of the whole byte sequence: the split keeps its last piece as
the unterminated buffer, every complete line is transformed and pushed with a
newline, and the end handler flushes a buffer with non-blank trim raw with an
appended newline and drops a blank one.  The buffer carries across chunk
boundaries, so the chunking of the sequence does not change the total
output. -/
def transformFoundryLocal (data : List Char) : List Char :=
  let pieces := splitOnChar '\n' data
  let buffer := pieces.getLast?.getD []
  (pieces.dropLast.map fun l => openAITransformLine l ++ ['\n']).join
    ++ (if trimChars buffer = [] then [] else buffer ++ ['\n'])

/-- model of _transformLine (foundryLocalEndpoint.ts:704-753): the line is
trimmed first and every pass-through path returns the trimmed line — a line
without the data mark, the sentinel, an empty or sentinel payload, an
unparsable payload, and a parsed null payload, whose choices read raises into
the catch; any other parsed payload is re-emitted from JSON.stringify with
its choices array, when it is one, mapped through sseChoice. -/
def foundryTransformLine (line : List Char) : List Char :=
  let t := trimChars line
  if ¬dataMark.isPrefixOf t = true then t
  else if t = doneLine then t
  else if t.drop 6 = [] ∨ t.drop 6 = doneBody then t
  else
    match parseJson (t.drop 6) with
    | none => t
    | some .null => t
    | some v =>
      match getField v choicesKey with
      | some (.arr cs) =>
        match cs.mapM sseChoice with
        | some cs' => dataMark ++ serializeV (setField v choicesKey (.arr cs'))
        | none => t
      | _ => dataMark ++ serializeV v

/-! ## Provider embeddings

The provider talks to the service through fetch calls and through the SDK;
each embedding below takes those outcomes as explicit arguments and mirrors
the try/catch control flow of its source function.  A response whose json()
read raises lands in the same catch as a raised fetch, so the two are one
outcome here.
-/

/-- outcome of the health fetch: raised, a failure HTTP status, or a body
with a status field and an optional version. -/
inductive HealthProbe where
  | throws
  | notOk
  | ok (status : List Char) (version : Option (List Char))

/-- outcome of the models-list fetch used as the secondary probe. -/
inductive ModelsProbe where
  | throws
  | notOk
  | ok

/-- which failure message checkFoundryService raises: notRunning carries the
start-command remediation and the base URL, notResponding the
not-responding-correctly text. -/
inductive CheckError where
  | notRunning
  | notResponding
deriving DecidableEq

/-- the ok status word. -/
def okWord : List Char := ['o', 'k']

/-- the healthy status word. -/
def healthyWord : List Char := ['h', 'e', 'a', 'l', 't', 'h', 'y']

/-- the status test of the health body, the negation of the code's
not-ok-and-not-healthy throw condition. -/
def statusOkOrHealthy (s : List Char) : Bool := s = okWord || s = healthyWord

/-- model of _checkFoundryService (foundryLocalProvider.ts:196-242,
part_001:234-289).  The outer try returns early on a healthy body, raises on
a raised fetch or an unhealthy status, and falls through without raising on a
failure HTTP status; only a raise reaches the catch, which consults the
models endpoint; the fall-through reaches the closing not-responding raise.
The version comparison inside the healthy branch only logs. -/
def checkFoundryService (hp : HealthProbe) (mp : ModelsProbe) : Except CheckError Unit :=
  let tryOutcome : Except Unit (Option Unit) :=
    match hp with
    | .throws => .error ()
    | .notOk => .ok none
    | .ok status _ => if statusOkOrHealthy status then .ok (some ()) else .error ()
  match tryOutcome with
  | .ok (some _) => .ok ()
  | .ok none => .error .notResponding
  | .error _ =>
    match mp with
    | .ok => .ok ()
    | .notOk => .error .notResponding
    | .throws => .error .notRunning

/-- the minimum supported version constant. -/
def minimumFoundryVersion : List Char := ['1', '.', '0', '.', '0']

/-- model of parseInt(s, 10) || 0: leading whitespace skipped, an optional
sign, the leading digit run valued, and NaN collapsed to 0 by the
or-default, which an empty digit run reproduces. -/
def parseIntOr0 (s : List Char) : Int :=
  match s.dropWhile wsChar with
  | '-' :: r => -(digitsToNat (r.takeWhile isDigitCh) : Int)
  | '+' :: r => (digitsToNat (r.takeWhile isDigitCh) : Int)
  | t => (digitsToNat (t.takeWhile isDigitCh) : Int)

/-- the numeric components of a version string: split on the dot, each
component through parseInt. -/
def verParts (s : List Char) : List Int := (splitOnChar '.' s).map parseIntOr0

/-- the comparison loop of _isVersionSupported: an index running to the
longer length, a missing component read as 0 by the or-default, the first
strict difference deciding, exhaustion answering supported.  The second
argument counts the remaining indices. -/
def cmpLoop (cs ms : List Int) : Nat → Nat → Bool
  | _, 0 => true
  | i, rem + 1 =>
    if cs.getD i 0 > ms.getD i 0 then true
    else if cs.getD i 0 < ms.getD i 0 then false
    else cmpLoop cs ms (i + 1) rem

/-- the component comparison over the two part lists. -/
def cmpParts (cs ms : List Int) : Bool := cmpLoop cs ms 0 (max cs.length ms.length)

/-- model of _isVersionSupported (foundryLocalProvider.ts:247-264,
part_001:294-311). -/
def isVersionSupported (currentVersion : List Char) : Bool :=
  cmpParts (verParts currentVersion) (verParts minimumFoundryVersion)

/-- outcome of one metadata fetch, the json() read folded in. -/
inductive Fetch (α : Type) where
  | threw
  | notOk
  | ok (body : α)

/-- the details record of the REST metadata endpoints
(FoundryLocalModelDetails).  Token numbers are rationals, since the
defaulting rule halves the context window with JS division. -/
structure ModelDetails where
  id : List Char
  name : Option (List Char)
  description : Option (List Char) := none
  capabilities : Option (List (List Char)) := none
  context_length : Option Rat := none
  max_tokens : Option Rat := none

/-- or-default on an optional string, false on the empty string as JS
truthiness is. -/
def strOr (x : Option (List Char)) (d : List Char) : List Char :=
  match x with
  | some s => if s = [] then d else s
  | none => d

/-- or-default on an optional number, false on 0 as JS truthiness is. -/
def numOr (x : Option Rat) (d : Rat) : Rat :=
  match x with
  | some n => if n = 0 then d else n
  | none => d

/-- the fallback details record of _getFoundryModelDetails
(foundryLocalProvider.ts:85-91 and 99-104). -/
def fallbackDetails (modelId : List Char) : ModelDetails :=
  { id := modelId, name := some modelId,
    context_length := some 4096, max_tokens := some 2048 }

/-- model of _getFoundryModelDetails (foundryLocalProvider.ts:74-106): a
successful body is returned as is, a failure status or a raise falls back. -/
def getFoundryModelDetails (f : Fetch ModelDetails) (modelId : List Char) : ModelDetails :=
  match f with
  | .ok d => d
  | _ => fallbackDetails modelId

/-- the fallback details record of the part_001 variant, which also carries
an empty capabilities list (part_001:110-116 and 120-126). -/
def fallbackDetailsP1 (modelId : List Char) : ModelDetails :=
  { id := modelId, name := some modelId, capabilities := some [],
    context_length := some 4096, max_tokens := some 2048 }

/-- the per-endpoint normalisation of a successful body in the part_001
variant (part_001:94-101). -/
def normalizeDetailsP1 (modelId : List Char) (d : ModelDetails) : ModelDetails :=
  { id := if d.id = [] then modelId else d.id,
    name := some (strOr d.name modelId),
    description := d.description,
    capabilities := some (d.capabilities.getD []),
    context_length := some (numOr d.context_length 4096),
    max_tokens := some (numOr d.max_tokens (min (numOr d.context_length 4096 / 2) 2048)) }

/-- model of the part_001 _getFoundryModelDetails (part_001:74-128): the
endpoints tried in order, the first successful body normalised and returned,
a raise or failure status moving to the next, exhaustion falling back. -/
def getFoundryModelDetailsP1 (fs : List (Fetch ModelDetails)) (modelId : List Char) : ModelDetails :=
  match fs with
  | [] => fallbackDetailsP1 modelId
  | .ok d :: _ => normalizeDetailsP1 modelId d
  | _ :: rest => getFoundryModelDetailsP1 rest modelId

/-- the capability record the providers build (BYOKModelCapabilities). -/
structure BYOKCaps where
  name : List Char
  maxOutputTokens : Rat
  maxInputTokens : Rat
  vision : Bool
  toolCalling : Bool

/-- the vision word. -/
def visionWord : List Char := ['v', 'i', 's', 'i', 'o', 'n']

/-- the multimodal task word. -/
def multimodalWord : List Char := ['m', 'u', 'l', 't', 'i', 'm', 'o', 'd', 'a', 'l']

/-- the tools capability word. -/
def toolsWord : List Char := ['t', 'o', 'o', 'l', 's']

/-- the function_calling capability word. -/
def functionCallingWord : List Char :=
  ['f', 'u', 'n', 'c', 't', 'i', 'o', 'n', '_', 'c', 'a', 'l', 'l', 'i', 'n', 'g']

/-- the tool_calling capability word. -/
def toolCallingWord : List Char :=
  ['t', 'o', 'o', 'l', '_', 'c', 'a', 'l', 'l', 'i', 'n', 'g']

/-- the thinking word. -/
def thinkingWord : List Char := ['t', 'h', 'i', 'n', 'k', 'i', 'n', 'g']

/-- the reasoning word. -/
def reasoningWord : List Char := ['r', 'e', 'a', 's', 'o', 'n', 'i', 'n', 'g']

/-- containment of a contiguous run, as String.prototype.includes. -/
def hasInfix : List Char → List Char → Bool
  | s, w =>
    if w.isPrefixOf s then true
    else
      match s with
      | [] => false
      | _ :: t => hasInfix t w

/-- case-lowered containment, as toLowerCase().includes(w). -/
def lowerContains (s : List Char) (w : List Char) : Bool :=
  hasInfix (s.map Char.toLower) w

/-- the resolved context window of the defaulting rules: the source value
unless falsy, else 4096. -/
def resolvedContextWindow (d : ModelDetails) : Rat := numOr d.context_length 4096

/-- the capability record getModelInfo builds from fetched details
(foundryLocalProvider.ts:113-137, identically part_001:135-159): context
window defaulted, output tokens defaulted to half the window capped at 2048,
input tokens the remainder, vision and tool support inferred. -/
def capsOfDetails (modelId : List Char) (d : ModelDetails) : BYOKCaps :=
  let contextWindow := resolvedContextWindow d
  let outputTokens := numOr d.max_tokens (min (contextWindow / 2) 2048)
  let caps := d.capabilities.getD []
  { name := strOr d.name modelId,
    maxOutputTokens := outputTokens,
    maxInputTokens := contextWindow - outputTokens,
    vision := caps.contains visionWord
      || (match d.name with
          | some nm => lowerContains nm visionWord
          | none => false)
      || lowerContains modelId visionWord,
    toolCalling := caps.contains toolsWord || caps.contains functionCallingWord
      || caps.contains toolCallingWord }

/-- getModelInfo of the REST variant on a cache miss with no caller
capabilities (foundryLocalProvider.ts:108-140): the details helper never
raises, so this always produces a record. -/
def getModelInfoTs (f : Fetch ModelDetails) (modelId : List Char) : BYOKCaps :=
  capsOfDetails modelId (getFoundryModelDetails f modelId)

/-- the SDK model info record (FoundryModelInfo fields the code reads). -/
structure FoundryModelInfo where
  id : List Char
  aliasName : Option (List Char)
  task : List Char

/-- outcome of an SDK getModelInfo call: raised, or resolved with a possibly
null record. -/
inductive SdkCall (α : Type) where
  | threw
  | resolved (value : Option α)

/-- the one failure _getFoundryModelInformation raises: its catch wraps the
not-found raise and every other raise into the same unable-to-get-information
message. -/
inductive P5Error where
  | unableToGetInfo
deriving DecidableEq

/-- model of _getFoundryModelInformation (part_005:64-79, identically
part_003:184-201): a null record raises not-found inside the try, the catch
rewraps it and every other raise into one message. -/
def getFoundryModelInformationP5 (call : SdkCall FoundryModelInfo) :
    Except P5Error FoundryModelInfo :=
  match call with
  | .threw => .error .unableToGetInfo
  | .resolved none => .error .unableToGetInfo
  | .resolved (some i) => .ok i

/-- the capability record the part_005 getModelInfo builds from SDK info
(part_005:86-110): fixed 4096 window, output half capped at 2048. -/
def capsOfInfoP5 (info : FoundryModelInfo) : BYOKCaps :=
  let contextWindow : Rat := 4096
  let outputTokens : Rat := min (contextWindow / 2) 2048
  { name := strOr info.aliasName info.id,
    maxOutputTokens := outputTokens,
    maxInputTokens := contextWindow - outputTokens,
    vision := (match info.aliasName with
               | some a => lowerContains a visionWord
               | none => false)
      || info.task = multimodalWord || info.task = visionWord,
    toolCalling := true }

/-- getModelInfo of the part_005 variant on a cache miss with no caller
capabilities (part_005:81-115): the information helper's failure propagates,
there is no defaulting catch in this variant. -/
def getModelInfoP5 (call : SdkCall FoundryModelInfo) :
    Except P5Error BYOKCaps :=
  match getFoundryModelInformationP5 call with
  | .error e => .error e
  | .ok info => .ok (capsOfInfoP5 info)

/-- one catalog row of the SDK listing (fields part_002 reads). -/
structure CatalogModel where
  id : List Char
  aliasName : List Char
  task : List Char
  uri : List Char

/-- the known-model record of the part_002 catalog lister. -/
structure KnownModelP2 where
  name : List Char
  thinking : Bool
  url : List Char
  maxInputTokens : Rat
  maxOutputTokens : Rat
  vision : Bool
  toolCalling : Bool

/-- the record the part_002 getAllModels builds per catalog row
(part_002:81-101): both token limits the fixed 4096. -/
def knownModelP2 (model : CatalogModel) : KnownModelP2 :=
  { name := model.aliasName,
    thinking := lowerContains model.id thinkingWord || lowerContains model.id reasoningWord,
    url := model.uri,
    maxInputTokens := 4096,
    maxOutputTokens := 4096,
    vision := model.task = multimodalWord || model.task = visionWord
      || lowerContains model.id visionWord,
    toolCalling := true }

/-- the chat model limits the base class resolves (capabilities.limits). -/
structure ChatModelLimits where
  max_prompt_tokens : Option Rat
  max_output_tokens : Option Rat

/-- the chat model information the base getModelInfo returns, the fields the
listing loop reads. -/
structure ChatModelInfo where
  name : List Char
  limits : Option ChatModelLimits
  supports_tool_calls : JsVal
  supports_vision : JsVal

/-- the known-model record of the part_001 listing. -/
structure KnownModelP1 where
  maxInputTokens : Rat
  maxOutputTokens : Rat
  name : List Char
  toolCalling : Bool
  vision : Bool

/-- the record the part_001 listing builds per resolved model
(part_001:200-206): optional chaining into limits with nullish defaults,
double negation on the support flags. -/
def knownOfChatInfo (info : ChatModelInfo) : KnownModelP1 :=
  { maxInputTokens := (info.limits.bind fun l => l.max_prompt_tokens).getD 4096,
    maxOutputTokens := (info.limits.bind fun l => l.max_output_tokens).getD 2048,
    name := info.name,
    toolCalling := jsTruthy info.supports_tool_calls,
    vision := jsTruthy info.supports_vision }

/-- generic property assignment for the known-models accumulator. -/
def upsertK : List (List Char × KnownModelP1) → List Char × KnownModelP1 →
    List (List Char × KnownModelP1)
  | [], kv => [kv]
  | (k', v') :: rest, (k, v) =>
    if k' = k then (k', v) :: rest else (k', v') :: upsertK rest (k, v)

/-- the id key. -/
def idKey : List Char := ['i', 'd']

/-- the data key of the models listing body. -/
def dataKey : List Char := ['d', 'a', 't', 'a']

/-- how the listing fails: the preserved service-check raise, or the generic
failed-to-fetch message of the outer catch. -/
inductive ListError where
  | serviceCheck (e : CheckError)
  | generic
deriving DecidableEq

/-- what the listing environment supplies: the service check outcome, the
models fetch outcome, and per-id resolution, which is getModelInfo with its
raising collapsed to an error. -/
structure ListEnv where
  check : Except CheckError Unit
  modelsFetch : Fetch JsVal
  resolve : List Char → Except Unit ChatModelInfo

/-- the per-entry loop of the part_001 listing (part_001:190-211): a null
entry makes the id read raise, an entry whose id is not a nonempty string is
skipped with a warning, a failed resolution skips the entry, a resolved one
is inserted by property assignment. -/
def processEntries (resolve : List Char → Except Unit ChatModelInfo) :
    List JsVal → List (List Char × KnownModelP1) →
    Except Unit (List (List Char × KnownModelP1))
  | [], acc => .ok acc
  | e :: rest, acc =>
    match e with
    | .null => .error ()
    | _ =>
      match getField e idKey with
      | some (.str s) =>
        if s = [] then processEntries resolve rest acc
        else
          match resolve s with
          | .ok info => processEntries resolve rest (upsertK acc (s, knownOfChatInfo info))
          | .error _ => processEntries resolve rest acc
      | _ => processEntries resolve rest acc

/-- model of the part_001 getAllModels (part_001:164-228): the service check
raise is preserved by the catch, a raised or failed models fetch becomes the
generic error, the data read on a null body raises into the catch as the
generic error, a non-null body whose data is not an array returns the empty
map with a warning, and a raised entry loop reaches the catch as the generic
error. -/
def getAllModelsP1 (env : ListEnv) : Except ListError (List (List Char × KnownModelP1)) :=
  match env.check with
  | .error e => .error (.serviceCheck e)
  | .ok _ =>
    match env.modelsFetch with
    | .threw => .error .generic
    | .notOk => .error .generic
    | .ok body =>
      match body with
      | .null => .error .generic
      | _ =>
        match getField body dataKey with
        | some (.arr entries) =>
          match processEntries env.resolve entries [] with
          | .ok km => .ok km
          | .error _ => .error .generic
        | _ => .ok []

/-- a continuation the number reader stops at: empty, or headed by a
character that is not a digit. -/
def restStop (rest : List Char) : Prop :=
  match rest with
  | [] => True
  | c :: _ => isDigitCh c = false

/-- goodness of one parser result, by its mode. -/
def goodRes : PRes → Bool
  | .v x => goodV x
  | .es xs => goodElems xs
  | .ms xs => goodMembers xs

/-! ## Lemmas: split and join -/

theorem splitOnChar_ne_nil (sep : Char) : ∀ s : List Char, splitOnChar sep s ≠ []
  | [] => by simp [splitOnChar]
  | c :: r => by
    simp only [splitOnChar]
    split
    · simp
    · have h := splitOnChar_ne_nil sep r
      split
      · simp
      · simp

theorem not_mem_of_mem_splitOnChar (sep : Char) :
    ∀ (s : List Char) (l : List Char), l ∈ splitOnChar sep s → sep ∉ l
  | [], l => by
    intro h
    simp [splitOnChar] at h
    simp [h]
  | c :: r, l => by
    intro h
    simp only [splitOnChar] at h
    by_cases hc : c = sep
    · rw [if_pos hc] at h
      rcases List.mem_cons.mp h with h1 | h1
      · simp [h1]
      · exact not_mem_of_mem_splitOnChar sep r l h1
    · rw [if_neg hc] at h
      rcases hsp : splitOnChar sep r with _ | ⟨l₀, ls⟩
      · exact absurd hsp (splitOnChar_ne_nil sep r)
      · rw [hsp] at h
        rcases List.mem_cons.mp h with h1 | h1
        · subst h1
          intro hm
          rcases List.mem_cons.mp hm with h2 | h2
          · exact hc h2.symm
          · exact not_mem_of_mem_splitOnChar sep r l₀ (by simp [hsp]) h2
        · exact not_mem_of_mem_splitOnChar sep r l (by simp [hsp, h1])

theorem splitOnChar_of_not_mem {sep : Char} :
    ∀ {l : List Char}, sep ∉ l → splitOnChar sep l = [l]
  | [], _ => by simp [splitOnChar]
  | c :: r, h => by
    have hc : c ≠ sep := fun he => h (by simp [he])
    have hr : sep ∉ r := fun hm => h (by simp [hm])
    simp only [splitOnChar, if_neg hc, splitOnChar_of_not_mem hr]

theorem splitOnChar_append_sep {sep : Char} :
    ∀ {l : List Char}, sep ∉ l → ∀ t : List Char,
      splitOnChar sep (l ++ sep :: t) = l :: splitOnChar sep t
  | [], _, t => by simp [splitOnChar]
  | c :: r, h, t => by
    have hc : c ≠ sep := fun he => h (by simp [he])
    have hr : sep ∉ r := fun hm => h (by simp [hm])
    have ih := splitOnChar_append_sep hr t
    simp [splitOnChar, hc, ih]

theorem splitOnChar_joinChar {sep : Char} :
    ∀ {ls : List (List Char)}, ls ≠ [] → (∀ l ∈ ls, sep ∉ l) →
      splitOnChar sep (joinChar sep ls) = ls
  | [], h, _ => absurd rfl h
  | [l], _, hm => by
    simp only [joinChar]
    exact splitOnChar_of_not_mem (hm l (by simp))
  | l :: l' :: ls, _, hm => by
    simp only [joinChar]
    rw [splitOnChar_append_sep (hm l (by simp))]
    rw [splitOnChar_joinChar (by simp) (fun x hx => hm x (by simp [hx]))]

/-! ## Lemmas: decimal numerals -/

theorem digitCh_toNat {d : Nat} (h : d < 10) : (digitCh d).toNat = 48 + d := by
  interval_cases d <;> decide

theorem isDigitCh_digitCh {d : Nat} (h : d < 10) : isDigitCh (digitCh d) = true := by
  interval_cases d <;> decide

theorem natCharsAux_big :
    ∀ (n : Nat) (fuel : Nat) (acc : List Char), n < fuel →
      natCharsAux fuel n acc = natChars n ++ acc := by
  intro n
  induction n using Nat.strong_induction_on with
  | _ n ih =>
    intro fuel acc hf
    match fuel, hf with
    | fuel + 1, hf =>
      by_cases h10 : n < 10
      · simp [natCharsAux, natChars, h10]
      · have hdiv : n / 10 < n := by omega
        simp only [natCharsAux, if_neg h10, natChars]
        rw [ih (n / 10) hdiv fuel (digitCh (n % 10) :: acc) (by omega)]
        rw [ih (n / 10) hdiv n [digitCh (n % 10)] (by omega)]
        simp

theorem natChars_lt10 {n : Nat} (h : n < 10) : natChars n = [digitCh n] := by
  simp [natChars, natCharsAux, h]

theorem natChars_ge10 {n : Nat} (h : ¬n < 10) :
    natChars n = natChars (n / 10) ++ [digitCh (n % 10)] := by
  have h1 : natChars n = natCharsAux n (n / 10) [digitCh (n % 10)] := by
    simp only [natChars, natCharsAux, if_neg h]
  rw [h1, natCharsAux_big (n / 10) n [digitCh (n % 10)] (by omega)]

theorem natChars_ne_nil (n : Nat) : natChars n ≠ [] := by
  by_cases h : n < 10
  · simp [natChars_lt10 h]
  · simp [natChars_ge10 h]

theorem natChars_all_digits :
    ∀ n : Nat, ∀ c ∈ natChars n, isDigitCh c = true := by
  intro n
  induction n using Nat.strong_induction_on with
  | _ n ih =>
    intro c hc
    by_cases h : n < 10
    · rw [natChars_lt10 h] at hc
      simp at hc
      subst hc
      exact isDigitCh_digitCh h
    · rw [natChars_ge10 h] at hc
      rcases List.mem_append.mp hc with h1 | h1
      · exact ih (n / 10) (Nat.div_lt_self (by omega) (by omega)) c h1
      · simp at h1
        subst h1
        exact isDigitCh_digitCh (Nat.mod_lt n (by omega))

theorem natChars_head_digit :
    ∀ n : Nat, ∃ d t, natChars n = digitCh d :: t ∧ d < 10 ∧ (n ≠ 0 → d ≠ 0) := by
  intro n
  induction n using Nat.strong_induction_on with
  | _ n ih =>
    by_cases h : n < 10
    · exact ⟨n, [], natChars_lt10 h, h, fun h0 => h0⟩
    · obtain ⟨d, t, ht, hd, h0⟩ := ih (n / 10) (Nat.div_lt_self (by omega) (by omega))
      refine ⟨d, t ++ [digitCh (n % 10)], ?_, hd, fun _ => h0 (by omega)⟩
      rw [natChars_ge10 h, ht]
      simp

theorem digitVal_digitCh {d : Nat} (h : d < 10) : digitVal (digitCh d) = d := by
  interval_cases d <;> decide

theorem digitsToNat_append_one (ds : List Char) (c : Char) :
    digitsToNat (ds ++ [c]) = 10 * digitsToNat ds + digitVal c := by
  simp [digitsToNat, List.foldl_append]
  ring

theorem digitsToNat_natChars : ∀ n : Nat, digitsToNat (natChars n) = n := by
  intro n
  induction n using Nat.strong_induction_on with
  | _ n ih =>
    by_cases h : n < 10
    · rw [natChars_lt10 h]
      simp [digitsToNat, digitVal_digitCh h]
    · rw [natChars_ge10 h, digitsToNat_append_one,
        ih (n / 10) (Nat.div_lt_self (by omega) (by omega)),
        digitVal_digitCh (Nat.mod_lt n (by omega))]
      omega

theorem numValid_natChars (n : Nat) : numValid (natChars n) = true := by
  by_cases h : n < 10
  · rw [natChars_lt10 h]
    simp [numValid, isDigitCh_digitCh h]
  · obtain ⟨d, t, ht, hd, h0⟩ := natChars_head_digit n
    have hne : d ≠ 0 := h0 (by omega)
    have hlen : 2 ≤ (natChars n).length := by
      rw [natChars_ge10 h]
      have h1 : natChars (n / 10) ≠ [] := natChars_ne_nil _
      have h2 : 0 < (natChars (n / 10)).length := List.length_pos.mpr h1
      simp
      omega
    rw [ht] at hlen ⊢
    rcases t with _ | ⟨x, xs⟩
    · simp at hlen
    · have h1 : isDigitCh (digitCh d) = true := isDigitCh_digitCh hd
      have h2 : digitCh d ≠ '0' := by
        interval_cases d
        · exact absurd rfl hne
        all_goals decide
      simp [numValid, h1, h2]

/-! ## Lemmas: reading a printed numeral and a printed string back -/

theorem takeWhile_append_stop {p : Char → Bool} :
    ∀ {l : List Char}, (∀ c ∈ l, p c = true) →
      ∀ {r : List Char}, (∀ c ∈ r.head?, p c = false) →
      (l ++ r).takeWhile p = l ∧ (l ++ r).dropWhile p = r
  | [], _, r, hr => by
    rcases r with _ | ⟨c, t⟩
    · simp
    · have hc : p c = false := hr c rfl
      simp [List.takeWhile, List.dropWhile, hc]
  | c :: l, hl, r, hr => by
    have hc : p c = true := hl c (by simp)
    have ih := takeWhile_append_stop (l := l) (fun x hx => hl x (by simp [hx])) (r := r) hr
    simp [List.takeWhile_cons, List.dropWhile_cons, hc, ih.1, ih.2]

theorem parseNat_natChars (n : Nat) {rest : List Char} (hrest : restStop rest) :
    parseNat (natChars n ++ rest) = some (n, rest) := by
  have hstop : ∀ c ∈ rest.head?, isDigitCh c = false := by
    rcases rest with _ | ⟨c, t⟩
    · simp
    · intro x hx
      simp at hx
      subst hx
      exact hrest
  obtain ⟨htake, hdrop⟩ := takeWhile_append_stop (natChars_all_digits n) hstop
  simp [parseNat, htake, hdrop, numValid_natChars, digitsToNat_natChars]

theorem escChars_cons (c : Char) (cs : List Char) :
    escChars (c :: cs) = escapeChar c ++ escChars cs := by
  simp [escChars]

theorem parseStr_cons_quote (t : List Char) : parseStr ('"' :: t) = some ([], t) := by
  rw [parseStr.eq_def]
  simp

theorem parseStr_cons_esc {e u : Char} (hu : unescape e = some u) {t cs r : List Char}
    (h : parseStr t = some (cs, r)) : parseStr ('\\' :: e :: t) = some (u :: cs, r) := by
  rw [parseStr.eq_def]
  simp [hu, h]

theorem parseStr_cons_raw {c : Char} (h1 : c ≠ '"') (h2 : c ≠ '\\') (h3 : ¬c.toNat < 32)
    {t cs r : List Char} (h : parseStr t = some (cs, r)) :
    parseStr (c :: t) = some (c :: cs, r) := by
  rw [parseStr.eq_def]
  simp [h1, h2, h3, h]

theorem parseStr_escChars :
    ∀ (s : List Char), goodStr s = true → ∀ rest : List Char,
      parseStr (escChars s ++ '"' :: rest) = some (s, rest)
  | [], _, rest => by
    rw [show escChars [] = [] from rfl, List.nil_append]
    exact parseStr_cons_quote rest
  | c :: cs, h, rest => by
    have hc : goodChar c = true := by
      simp [goodStr] at h
      exact h.1
    have hcs : goodStr cs = true := by
      simp [goodStr] at h ⊢
      exact h.2
    have ih := parseStr_escChars cs hcs rest
    rw [escChars_cons]
    by_cases h1 : c = '"'
    · subst h1
      rw [show escapeChar '"' = ['\\', '"'] from rfl]
      exact parseStr_cons_esc (by decide) ih
    by_cases h2 : c = '\\'
    · subst h2
      rw [show escapeChar '\\' = ['\\', '\\'] from rfl]
      exact parseStr_cons_esc (by decide) ih
    by_cases h3 : c = '\n'
    · subst h3
      rw [show escapeChar '\n' = ['\\', 'n'] from rfl]
      exact parseStr_cons_esc (by decide) ih
    by_cases h4 : c = '\t'
    · subst h4
      rw [show escapeChar '\t' = ['\\', 't'] from rfl]
      exact parseStr_cons_esc (by decide) ih
    by_cases h5 : c = '\r'
    · subst h5
      rw [show escapeChar '\r' = ['\\', 'r'] from rfl]
      exact parseStr_cons_esc (by decide) ih
    by_cases h6 : c = Char.ofNat 8
    · subst h6
      rw [show escapeChar (Char.ofNat 8) = ['\\', 'b'] from rfl]
      exact parseStr_cons_esc (by decide) ih
    by_cases h7 : c = Char.ofNat 12
    · subst h7
      rw [show escapeChar (Char.ofNat 12) = ['\\', 'f'] from rfl]
      exact parseStr_cons_esc (by decide) ih
    · have hg := hc
      simp [goodChar] at hg
      have h32 : ¬c.toNat < 32 := by
        rcases hg with ((((hg | hg) | hg) | hg) | hg) | hg
        · omega
        · exact absurd hg h3
        · exact absurd hg h4
        · exact absurd hg h5
        · exact absurd hg h6
        · exact absurd hg h7
      rw [show escapeChar c = [c] by simp [escapeChar, h1, h2, h3, h4, h5, h6, h7]]
      exact parseStr_cons_raw h1 h2 h32 ih

theorem unescape_good {e u : Char} (h : unescape e = some u) : goodChar u = true := by
  simp only [unescape] at h
  split_ifs at h <;> simp_all <;> subst h <;> decide

theorem parseStr_good :
    ∀ (s cs r : List Char), parseStr s = some (cs, r) → goodStr cs = true
  | [], cs, r => by
    rw [parseStr.eq_def]
    simp
  | c :: s, cs, r => by
    intro h
    rw [parseStr.eq_def] at h
    dsimp only at h
    by_cases h1 : c = '"'
    · rw [if_pos h1] at h
      simp at h
      obtain ⟨rfl, rfl⟩ := h
      simp [goodStr]
    rw [if_neg h1] at h
    by_cases h2 : c = '\\'
    · rw [if_pos h2] at h
      rcases s with _ | ⟨e, r₁⟩
      · simp at h
      · dsimp only at h
        rcases hu : unescape e with _ | u
        · rw [hu] at h
          simp at h
        · rw [hu] at h
          rcases hp : parseStr r₁ with _ | ⟨p⟩
          · rw [hp] at h
            simp at h
          · rw [hp] at h
            simp at h
            have ih := parseStr_good r₁ p.1 p.2 (by rw [hp])
            rw [← h.1]
            simp [goodStr] at ih ⊢
            exact ⟨unescape_good hu, ih⟩
    · rw [if_neg h2] at h
      by_cases h3 : c.toNat < 32
      · rw [if_pos h3] at h
        simp at h
      · rw [if_neg h3] at h
        rcases hp : parseStr s with _ | ⟨p⟩
        · rw [hp] at h
          simp at h
        · rw [hp] at h
          simp at h
          have ih := parseStr_good s p.1 p.2 (by rw [hp])
          rw [← h.1]
          simp [goodStr, goodChar] at ih ⊢
          exact ⟨Or.inl (by omega), ih⟩

/-! ## Lemmas: stepping the value parser one branch at a time -/

theorem skipWs_nows {c : Char} (h : wsChar c = false) (r : List Char) :
    skipWs (c :: r) = c :: r := by
  simp [skipWs, h]

theorem digit_ne {c : Char} (hd : isDigitCh c = true) {x : Char}
    (hx : x.toNat < 48 ∨ 57 < x.toNat) : c ≠ x := by
  intro he
  subst he
  simp [isDigitCh] at hd
  omega

theorem wsChar_false_of_digit {c : Char} (hd : isDigitCh c = true) : wsChar c = false := by
  have hb : 48 ≤ c.toNat ∧ c.toNat ≤ 57 := by simpa [isDigitCh] using hd
  simp only [wsChar, Bool.or_eq_false_iff, decide_eq_false_iff_not]
  refine ⟨⟨⟨?_, ?_⟩, ?_⟩, ?_⟩ <;> intro he <;> rw [he] at hb <;> exact absurd hb (by decide)

theorem parseCore_val_null (fuel : Nat) (rest : List Char) :
    parseCore (fuel + 1) .val ('n' :: 'u' :: 'l' :: 'l' :: rest) = some (.v .null, rest) := rfl

theorem parseCore_val_true (fuel : Nat) (rest : List Char) :
    parseCore (fuel + 1) .val ('t' :: 'r' :: 'u' :: 'e' :: rest) =
      some (.v (.bool true), rest) := rfl

theorem parseCore_val_false (fuel : Nat) (rest : List Char) :
    parseCore (fuel + 1) .val ('f' :: 'a' :: 'l' :: 's' :: 'e' :: rest) =
      some (.v (.bool false), rest) := rfl

theorem parseCore_val_quote (fuel : Nat) {t cs r : List Char}
    (h : parseStr t = some (cs, r)) :
    parseCore (fuel + 1) .val ('"' :: t) = some (.v (.str cs), r) := by
  rw [parseCore]
  rw [skipWs_nows (by decide)]
  dsimp only
  rw [if_neg (by decide), if_neg (by decide), if_neg (by decide), if_pos rfl, h]

theorem parseCore_val_neg (fuel : Nat) {t rest : List Char} {n : Nat}
    (h : parseNat t = some (n, rest)) :
    parseCore (fuel + 1) .val ('-' :: t) = some (.v (.num (-(n : Int))), rest) := by
  rw [parseCore]
  rw [skipWs_nows (by decide)]
  dsimp only
  rw [if_neg (by decide), if_neg (by decide), if_neg (by decide), if_neg (by decide),
    if_neg (by decide), if_neg (by decide), if_pos rfl, h]

theorem parseCore_val_digit (fuel : Nat) {c : Char} {t rest : List Char} {n : Nat}
    (hd : isDigitCh c = true) (h : parseNat (c :: t) = some (n, rest)) :
    parseCore (fuel + 1) .val (c :: t) = some (.v (.num (n : Int)), rest) := by
  rw [parseCore]
  rw [skipWs_nows (wsChar_false_of_digit hd)]
  dsimp only
  rw [if_neg (digit_ne hd (by decide)), if_neg (digit_ne hd (by decide)),
    if_neg (digit_ne hd (by decide)), if_neg (digit_ne hd (by decide)),
    if_neg (digit_ne hd (by decide)), if_neg (digit_ne hd (by decide)),
    if_neg (digit_ne hd (by decide)), if_pos hd, h]

theorem parseCore_val_arrNil (fuel : Nat) (rest : List Char) :
    parseCore (fuel + 1) .val ('[' :: ']' :: rest) = some (.v (.arr []), rest) := rfl

theorem parseCore_val_arr (fuel : Nat) {c : Char} {t r : List Char} {xs : List JsVal}
    (hws : wsChar c = false) (hc : c ≠ ']')
    (h : parseCore fuel .elems (c :: t) = some (.es xs, r)) :
    parseCore (fuel + 1) .val ('[' :: c :: t) = some (.v (.arr xs), r) := by
  rw [parseCore]
  rw [skipWs_nows (by decide)]
  dsimp only
  rw [if_neg (by decide), if_neg (by decide), if_neg (by decide), if_neg (by decide), if_pos rfl]
  rw [skipWs_nows hws]
  dsimp only
  rw [if_neg hc, h]

theorem parseCore_val_objNil (fuel : Nat) (rest : List Char) :
    parseCore (fuel + 1) .val ('{' :: '}' :: rest) = some (.v (.obj []), rest) := rfl

theorem parseCore_val_obj (fuel : Nat) {c : Char} {t r : List Char}
    {xs : List (List Char × JsVal)} (hws : wsChar c = false) (hc : c ≠ '}')
    (h : parseCore fuel .members (c :: t) = some (.ms xs, r)) :
    parseCore (fuel + 1) .val ('{' :: c :: t) = some (.v (.obj (dedupFields xs)), r) := by
  rw [parseCore]
  rw [skipWs_nows (by decide)]
  dsimp only
  rw [if_neg (by decide), if_neg (by decide), if_neg (by decide), if_neg (by decide),
    if_neg (by decide), if_pos rfl]
  rw [skipWs_nows hws]
  dsimp only
  rw [if_neg hc, h]

theorem parseCore_elems_done (fuel : Nat) {s r₁ : List Char} {x : JsVal}
    (h : parseCore fuel .val s = some (.v x, ']' :: r₁)) :
    parseCore (fuel + 1) .elems s = some (.es [x], r₁) := by
  rw [parseCore, h]
  dsimp only
  rw [skipWs_nows (by decide)]
  dsimp only
  rw [if_neg (by decide), if_pos rfl]

theorem parseCore_elems_more (fuel : Nat) {s t rest : List Char} {x : JsVal} {xs : List JsVal}
    (h : parseCore fuel .val s = some (.v x, ',' :: t))
    (h2 : parseCore fuel .elems t = some (.es xs, rest)) :
    parseCore (fuel + 1) .elems s = some (.es (x :: xs), rest) := by
  rw [parseCore, h]
  dsimp only
  rw [skipWs_nows (by decide)]
  dsimp only
  rw [if_pos rfl, h2]

theorem parseCore_members_done (fuel : Nat) {t w rest : List Char} {k : List Char} {x : JsVal}
    (hk : parseStr t = some (k, ':' :: w))
    (hx : parseCore fuel .val w = some (.v x, '}' :: rest)) :
    parseCore (fuel + 1) .members ('"' :: t) = some (.ms [(k, x)], rest) := by
  rw [parseCore]
  rw [skipWs_nows (by decide)]
  dsimp only
  rw [if_pos rfl, hk]
  dsimp only
  rw [skipWs_nows (by decide)]
  dsimp only
  rw [if_pos rfl, hx]
  dsimp only
  rw [skipWs_nows (by decide)]
  dsimp only
  rw [if_neg (by decide), if_pos rfl]

theorem parseCore_members_more (fuel : Nat) {t w u rest : List Char} {k : List Char} {x : JsVal}
    {xs : List (List Char × JsVal)}
    (hk : parseStr t = some (k, ':' :: w))
    (hx : parseCore fuel .val w = some (.v x, ',' :: u))
    (hrest : parseCore fuel .members u = some (.ms xs, rest)) :
    parseCore (fuel + 1) .members ('"' :: t) = some (.ms ((k, x) :: xs), rest) := by
  rw [parseCore]
  rw [skipWs_nows (by decide)]
  dsimp only
  rw [if_pos rfl, hk]
  dsimp only
  rw [skipWs_nows (by decide)]
  dsimp only
  rw [if_pos rfl, hx]
  dsimp only
  rw [skipWs_nows (by decide)]
  dsimp only
  rw [if_pos rfl, hrest]

/-! ## Lemmas: the shape of printed values -/

theorem digitCh_props {d : Nat} (hd : d < 10) :
    wsChar (digitCh d) = false ∧ digitCh d ≠ ']' ∧ digitCh d ≠ '}' ∧ digitCh d ≠ 'D' := by
  have h := isDigitCh_digitCh hd
  exact ⟨wsChar_false_of_digit h, digit_ne h (by decide), digit_ne h (by decide),
    digit_ne h (by decide)⟩

theorem intChars_val (fuel : Nat) {n : Int} {rest : List Char} (hrest : restStop rest) :
    parseCore (fuel + 1) .val (intChars n ++ rest) = some (.v (.num n), rest) := by
  by_cases hneg : n < 0
  · rw [show intChars n = '-' :: natChars n.natAbs by simp [intChars, hneg]]
    rw [List.cons_append]
    rw [parseCore_val_neg fuel (parseNat_natChars n.natAbs hrest)]
    congr
    omega
  · rw [show intChars n = natChars n.toNat by simp [intChars, hneg]]
    obtain ⟨d, t, ht, hd, -⟩ := natChars_head_digit n.toNat
    have hdig : isDigitCh (digitCh d) = true := isDigitCh_digitCh hd
    have hp : parseNat (natChars n.toNat ++ rest) = some (n.toNat, rest) :=
      parseNat_natChars n.toNat hrest
    rw [ht] at hp ⊢
    rw [List.cons_append] at hp ⊢
    rw [parseCore_val_digit fuel hdig hp]
    congr
    omega

theorem serializeV_head (v : JsVal) :
    ∃ c t, serializeV v = c :: t ∧ wsChar c = false ∧ c ≠ ']' ∧ c ≠ '}' ∧ c ≠ 'D' := by
  cases v with
  | null => exact ⟨'n', _, rfl, by decide, by decide, by decide, by decide⟩
  | bool b =>
    cases b
    · exact ⟨'f', _, rfl, by decide, by decide, by decide, by decide⟩
    · exact ⟨'t', _, rfl, by decide, by decide, by decide, by decide⟩
  | num n =>
    by_cases hneg : n < 0
    · exact ⟨'-', natChars n.natAbs, by simp [serializeV, intChars, hneg], by decide,
        by decide, by decide, by decide⟩
    · obtain ⟨d, t, ht, hd, -⟩ := natChars_head_digit n.toNat
      obtain ⟨hw, h1, h2, h3⟩ := digitCh_props hd
      exact ⟨digitCh d, t, by simp [serializeV, intChars, hneg, ht], hw, h1, h2, h3⟩
  | str s =>
    exact ⟨'"', escChars s ++ ['"'], by simp [serializeV], by decide, by decide, by decide,
      by decide⟩
  | arr vs =>
    cases vs with
    | nil => exact ⟨'[', _, rfl, by decide, by decide, by decide, by decide⟩
    | cons v vs =>
      exact ⟨'[', (serializeV v ++ serializeElems vs) ++ [']'], by simp [serializeV],
        by decide, by decide, by decide, by decide⟩
  | obj ms =>
    cases ms with
    | nil => exact ⟨'{', _, rfl, by decide, by decide, by decide, by decide⟩
    | cons m ms =>
      exact ⟨'{', (serializeMember m ++ serializeMembers ms) ++ ['}'], by simp [serializeV],
        by decide, by decide, by decide, by decide⟩

theorem needV_pos (v : JsVal) : 1 ≤ needV v := by
  cases v with
  | null => simp [needV]
  | bool b => simp [needV]
  | num n => simp [needV]
  | str s => simp [needV]
  | arr vs => simp [needV]
  | obj ms => simp [needV]

theorem serializeV_len_pos (v : JsVal) : 1 ≤ (serializeV v).length := by
  obtain ⟨c, t, hct, -⟩ := serializeV_head v
  simp [hct]

mutual
theorem needV_le : ∀ v : JsVal, needV v ≤ (serializeV v).length + 1
  | .null => by simp [needV, serializeV]
  | .bool b => by cases b <;> simp [needV, serializeV]
  | .num n => by simp [needV]
  | .str s => by simp [needV]
  | .arr [] => by simp [needV, needElems, serializeV]
  | .arr (v :: vs) => by
    have h := needElems_le v vs
    simp only [needV, needElems, serializeV] at h ⊢
    simp at h ⊢
    omega
  | .obj [] => by simp [needV, needMembers, serializeV]
  | .obj (m :: ms) => by
    have h := needMembers_le m ms
    simp only [needV, needMembers, serializeV] at h ⊢
    simp at h ⊢
    omega
termination_by v => sizeOf v
theorem needElems_le : ∀ (v : JsVal) (vs : List JsVal),
    needElems (v :: vs) ≤ (serializeV v).length + (serializeElems vs).length + 2
  | v, [] => by
    have h := needV_le v
    simp only [needElems, serializeElems]
    simp
    omega
  | v, w :: ws => by
    have h1 := needV_le v
    have h2 := needElems_le w ws
    have hw := serializeV_len_pos w
    simp only [needElems, serializeElems] at h2 ⊢
    simp at h2 ⊢
    omega
termination_by v vs => 1 + sizeOf v + sizeOf vs
theorem needMembers_le : ∀ (m : List Char × JsVal) (ms : List (List Char × JsVal)),
    needMembers (m :: ms) ≤ (serializeMember m).length + (serializeMembers ms).length + 2
  | (k, x), [] => by
    have h := needV_le x
    simp only [needMembers, serializeMembers, serializeMember]
    simp
    omega
  | (k, x), m :: ms => by
    have h1 := needV_le x
    have h2 := needMembers_le m ms
    have hm : 1 ≤ (serializeMember m).length := by
      obtain ⟨k', x'⟩ := m
      simp [serializeMember]
    simp only [needMembers, serializeMembers, serializeMember] at h2 ⊢
    simp at h2 ⊢
    omega
termination_by m ms => 1 + sizeOf m + sizeOf ms
end

/-! ## Lemmas: duplicate-key collapse is the identity on distinct keys -/

theorem upsert_not_mem :
    ∀ {acc : List (List Char × JsVal)} {k : List Char} {v : JsVal},
      k ∉ acc.map Prod.fst → upsert acc (k, v) = acc ++ [(k, v)]
  | [], k, v, _ => rfl
  | (k', v') :: rest, k, v, h => by
    have hne : k' ≠ k := by
      intro he
      exact h (by simp [he])
    have hrest : k ∉ rest.map Prod.fst := by
      intro hm
      exact h (by simp [hm])
    simp only [upsert, if_neg hne, upsert_not_mem hrest, List.cons_append]

theorem foldl_upsert_append :
    ∀ (ms : List (List Char × JsVal)), (ms.map Prod.fst).Nodup →
      ∀ acc : List (List Char × JsVal),
        (∀ k ∈ ms.map Prod.fst, k ∉ acc.map Prod.fst) →
        ms.foldl upsert acc = acc ++ ms
  | [], _, acc, _ => by simp
  | (k, x) :: ms, hnd, acc, hdisj => by
    have hk : k ∉ acc.map Prod.fst := hdisj k (by simp)
    have hnc : k ∉ ms.map Prod.fst ∧ (ms.map Prod.fst).Nodup :=
      List.nodup_cons.mp (by simpa using hnd)
    have hkms : k ∉ ms.map Prod.fst := hnc.1
    have hnd' : (ms.map Prod.fst).Nodup := hnc.2
    have hdisj' : ∀ k' ∈ ms.map Prod.fst, k' ∉ (acc ++ [(k, x)]).map Prod.fst := by
      intro k' hk' hmem
      simp at hmem
      rcases hmem with hmem | hmem
      · exact hdisj k' (by simp [hk']) (by simp [hmem])
      · exact hkms (hmem ▸ hk')
    calc ((k, x) :: ms).foldl upsert acc = ms.foldl upsert (upsert acc (k, x)) := rfl
      _ = ms.foldl upsert (acc ++ [(k, x)]) := by rw [upsert_not_mem hk]
      _ = (acc ++ [(k, x)]) ++ ms := foldl_upsert_append ms hnd' _ hdisj'
      _ = acc ++ (k, x) :: ms := by simp

theorem dedupFields_eq_self {ms : List (List Char × JsVal)}
    (hnd : (ms.map Prod.fst).Nodup) : dedupFields ms = ms := by
  have h := foldl_upsert_append ms hnd [] (by simp)
  simpa [dedupFields] using h

/-! ## The roundtrip: parsing what the printer wrote gives the value back -/

theorem restStop_members (ms : List (List Char × JsVal)) (rest : List Char) :
    restStop (serializeMembers ms ++ '}' :: rest) := by
  cases ms with
  | nil => simp [serializeMembers, restStop, isDigitCh]
  | cons m ms => simp [serializeMembers, restStop, isDigitCh]

theorem restStop_elems (vs : List JsVal) (rest : List Char) :
    restStop (serializeElems vs ++ ']' :: rest) := by
  cases vs with
  | nil => simp [serializeElems, restStop, isDigitCh]
  | cons v vs => simp [serializeElems, restStop, isDigitCh]

mutual
theorem parse_serializeV :
    ∀ (v : JsVal) (fuel : Nat) (rest : List Char), goodV v = true → needV v ≤ fuel →
      restStop rest → parseCore fuel .val (serializeV v ++ rest) = some (.v v, rest)
  | .null, fuel, rest, _, hf, _ => by
    obtain ⟨f, rfl⟩ : ∃ f, fuel = f + 1 :=
      ⟨fuel - 1, by have h := hf; simp only [needV] at h; omega⟩
    exact parseCore_val_null f rest
  | .bool false, fuel, rest, _, hf, _ => by
    obtain ⟨f, rfl⟩ : ∃ f, fuel = f + 1 :=
      ⟨fuel - 1, by have h := hf; simp only [needV] at h; omega⟩
    exact parseCore_val_false f rest
  | .bool true, fuel, rest, _, hf, _ => by
    obtain ⟨f, rfl⟩ : ∃ f, fuel = f + 1 :=
      ⟨fuel - 1, by have h := hf; simp only [needV] at h; omega⟩
    exact parseCore_val_true f rest
  | .num n, fuel, rest, _, hf, hr => by
    obtain ⟨f, rfl⟩ : ∃ f, fuel = f + 1 :=
      ⟨fuel - 1, by have h := hf; simp only [needV] at h; omega⟩
    exact intChars_val f hr
  | .str s, fuel, rest, hg, hf, _ => by
    obtain ⟨f, rfl⟩ : ∃ f, fuel = f + 1 :=
      ⟨fuel - 1, by have h := hf; simp only [needV] at h; omega⟩
    have hgs : goodStr s = true := by simpa [goodV] using hg
    have harg : serializeV (.str s) ++ rest = '"' :: (escChars s ++ '"' :: rest) := by
      simp [serializeV]
    rw [harg]
    exact parseCore_val_quote f (parseStr_escChars s hgs rest)
  | .arr [], fuel, rest, _, hf, _ => by
    obtain ⟨f, rfl⟩ : ∃ f, fuel = f + 1 :=
      ⟨fuel - 1, by have h := hf; simp only [needV] at h; omega⟩
    exact parseCore_val_arrNil f rest
  | .arr (v :: vs), fuel, rest, hg, hf, _ => by
    obtain ⟨f, rfl⟩ : ∃ f, fuel = f + 1 :=
      ⟨fuel - 1, by have h := hf; simp only [needV] at h; omega⟩
    have hgs : goodV v = true ∧ goodElems vs = true := by
      simpa [goodV, goodElems] using hg
    have hfe : needElems (v :: vs) ≤ f := by
      simp only [needV] at hf
      omega
    have helems := parse_serializeElems v vs f rest hgs.1 hgs.2 hfe
    obtain ⟨c, t, hct, hws, hcne, -, -⟩ := serializeV_head v
    rw [hct] at helems
    simp only [List.cons_append, List.append_assoc] at helems
    have harg : serializeV (.arr (v :: vs)) ++ rest
        = '[' :: c :: (t ++ (serializeElems vs ++ ']' :: rest)) := by
      simp [serializeV, hct]
    rw [harg]
    exact parseCore_val_arr f hws hcne helems
  | .obj [], fuel, rest, _, hf, _ => by
    obtain ⟨f, rfl⟩ : ∃ f, fuel = f + 1 :=
      ⟨fuel - 1, by have h := hf; simp only [needV] at h; omega⟩
    exact parseCore_val_objNil f rest
  | .obj ((k, x) :: ms), fuel, rest, hg, hf, _ => by
    obtain ⟨f, rfl⟩ : ∃ f, fuel = f + 1 :=
      ⟨fuel - 1, by have h := hf; simp only [needV] at h; omega⟩
    have hg' := hg
    simp only [goodV, Bool.and_eq_true, decide_eq_true_eq] at hg'
    have hnd : (((k, x) :: ms).map Prod.fst).Nodup := hg'.1
    have hgm : (goodStr k = true ∧ goodV x = true) ∧ goodMembers ms = true := by
      simpa [goodMembers] using hg'.2
    have hfm : needMembers ((k, x) :: ms) ≤ f := by
      simp only [needV] at hf
      omega
    have hmem := parse_serializeMembers k x ms f rest hgm.1.1 hgm.1.2 hgm.2 hfm
    have harg2 : (serializeMember (k, x) ++ serializeMembers ms) ++ '}' :: rest
        = '"' :: (escChars k ++ '"' :: ':' :: (serializeV x
            ++ (serializeMembers ms ++ '}' :: rest))) := by
      simp [serializeMember]
    rw [harg2] at hmem
    have harg : serializeV (.obj ((k, x) :: ms)) ++ rest
        = '{' :: '"' :: (escChars k ++ '"' :: ':' :: (serializeV x
            ++ (serializeMembers ms ++ '}' :: rest))) := by
      simp [serializeV, serializeMember]
    rw [harg]
    rw [show JsVal.obj ((k, x) :: ms) = JsVal.obj (dedupFields ((k, x) :: ms)) by
      rw [dedupFields_eq_self hnd]]
    exact parseCore_val_obj f (by decide) (by decide) hmem
termination_by v => sizeOf v
decreasing_by
all_goals simp_wf
all_goals omega
theorem parse_serializeElems :
    ∀ (v : JsVal) (vs : List JsVal) (fuel : Nat) (rest : List Char),
      goodV v = true → goodElems vs = true → needElems (v :: vs) ≤ fuel →
      parseCore fuel .elems ((serializeV v ++ serializeElems vs) ++ ']' :: rest)
        = some (.es (v :: vs), rest)
  | v, [], fuel, rest, hgv, hgvs, hf => by
    rw [show needElems (v :: []) = 1 + max (needV v) (needElems []) by
      simp only [needElems]] at hf
    obtain ⟨f, rfl⟩ : ∃ f, fuel = f + 1 := ⟨fuel - 1, by omega⟩
    have hfv : needV v ≤ f := by
      have := Nat.le_max_left (needV v) (needElems ([] : List JsVal))
      omega
    have hv := parse_serializeV v f (']' :: rest) hgv hfv
      (by simp [restStop, isDigitCh])
    have harg : (serializeV v ++ serializeElems []) ++ ']' :: rest
        = serializeV v ++ ']' :: rest := by
      simp [serializeElems]
    rw [harg]
    exact parseCore_elems_done f hv
  | v, w :: ws, fuel, rest, hgv, hgvs, hf => by
    rw [show needElems (v :: w :: ws) = 1 + max (needV v) (needElems (w :: ws)) by
      simp only [needElems]] at hf
    obtain ⟨f, rfl⟩ : ∃ f, fuel = f + 1 := ⟨fuel - 1, by omega⟩
    have hfv : needV v ≤ f := by
      have := Nat.le_max_left (needV v) (needElems (w :: ws))
      omega
    have hgs : goodV w = true ∧ goodElems ws = true := by
      simpa [goodElems] using hgvs
    have hfe : needElems (w :: ws) ≤ f := by
      have := Nat.le_max_right (needV v) (needElems (w :: ws))
      omega
    have harg : (serializeV v ++ serializeElems (w :: ws)) ++ ']' :: rest
        = serializeV v ++ ',' :: ((serializeV w ++ serializeElems ws) ++ ']' :: rest) := by
      simp [serializeElems]
    rw [harg]
    have hv := parse_serializeV v f
      (',' :: ((serializeV w ++ serializeElems ws) ++ ']' :: rest)) hgv hfv
      (by simp [restStop, isDigitCh])
    have hrec := parse_serializeElems w ws f rest hgs.1 hgs.2 hfe
    exact parseCore_elems_more f hv hrec
termination_by v vs => 1 + sizeOf v + sizeOf vs
decreasing_by
all_goals simp_wf
all_goals omega
theorem parse_serializeMembers :
    ∀ (k : List Char) (x : JsVal) (ms : List (List Char × JsVal)) (fuel : Nat)
      (rest : List Char), goodStr k = true → goodV x = true → goodMembers ms = true →
      needMembers ((k, x) :: ms) ≤ fuel →
      parseCore fuel .members ((serializeMember (k, x) ++ serializeMembers ms) ++ '}' :: rest)
        = some (.ms ((k, x) :: ms), rest)
  | k, x, [], fuel, rest, hgk, hgx, hgms, hf => by
    rw [show needMembers ((k, x) :: []) = 1 + max (needV x) (needMembers []) by
      simp only [needMembers]] at hf
    obtain ⟨f, rfl⟩ : ∃ f, fuel = f + 1 := ⟨fuel - 1, by omega⟩
    have hfx : needV x ≤ f := by
      have := Nat.le_max_left (needV x) (needMembers ([] : List (List Char × JsVal)))
      omega
    have harg : (serializeMember (k, x) ++ serializeMembers []) ++ '}' :: rest
        = '"' :: (escChars k ++ '"' :: ':' :: (serializeV x ++ '}' :: rest)) := by
      simp [serializeMember, serializeMembers]
    rw [harg]
    have hk := parseStr_escChars k hgk (':' :: (serializeV x ++ '}' :: rest))
    have hx := parse_serializeV x f ('}' :: rest) hgx hfx
      (by simp [restStop, isDigitCh])
    exact parseCore_members_done f hk hx
  | k, x, (k', x') :: ms, fuel, rest, hgk, hgx, hgms, hf => by
    rw [show needMembers ((k, x) :: (k', x') :: ms)
        = 1 + max (needV x) (needMembers ((k', x') :: ms)) by
      simp only [needMembers]] at hf
    obtain ⟨f, rfl⟩ : ∃ f, fuel = f + 1 := ⟨fuel - 1, by omega⟩
    have hfx : needV x ≤ f := by
      have := Nat.le_max_left (needV x) (needMembers ((k', x') :: ms))
      omega
    have hgs : (goodStr k' = true ∧ goodV x' = true) ∧ goodMembers ms = true := by
      simpa [goodMembers] using hgms
    have hfm : needMembers ((k', x') :: ms) ≤ f := by
      have := Nat.le_max_right (needV x) (needMembers ((k', x') :: ms))
      omega
    have harg : (serializeMember (k, x) ++ serializeMembers ((k', x') :: ms)) ++ '}' :: rest
        = '"' :: (escChars k ++ '"' :: ':' :: (serializeV x
            ++ ',' :: ((serializeMember (k', x') ++ serializeMembers ms) ++ '}' :: rest))) := by
      simp [serializeMember, serializeMembers]
    rw [harg]
    have hk := parseStr_escChars k hgk (':' :: (serializeV x
      ++ ',' :: ((serializeMember (k', x') ++ serializeMembers ms) ++ '}' :: rest)))
    have hx := parse_serializeV x f
      (',' :: ((serializeMember (k', x') ++ serializeMembers ms) ++ '}' :: rest)) hgx hfx
      (by simp [restStop, isDigitCh])
    have hrec := parse_serializeMembers k' x' ms f rest hgs.1.1 hgs.1.2 hgs.2 hfm
    exact parseCore_members_more f hk hx hrec
termination_by _ x ms => 1 + sizeOf x + sizeOf ms
end

/-- top-level roundtrip: serializing a good value and parsing it back with
JSON.parse returns the same value. -/
theorem parseJson_serializeV (v : JsVal) (hg : goodV v = true) :
    parseJson (serializeV v) = some v := by
  have h := parse_serializeV v ((serializeV v).length + 1) [] hg
    (by have := needV_le v; omega) (by simp [restStop])
  rw [List.append_nil] at h
  simp [parseJson, h, skipWs]

/-- membership characterisation of a good field list. -/
theorem goodMembers_iff : ∀ ms : List (List Char × JsVal),
    goodMembers ms = true ↔ ∀ p ∈ ms, goodStr p.1 = true ∧ goodV p.2 = true
  | [] => by simp [goodMembers]
  | (k, x) :: ms => by
    rw [show goodMembers ((k, x) :: ms) = (goodStr k && goodV x && goodMembers ms) by
      simp [goodMembers]]
    simp only [Bool.and_eq_true, goodMembers_iff ms, List.mem_cons]
    constructor
    · rintro ⟨⟨h1, h2⟩, h3⟩ p hp
      rcases hp with rfl | hp
      · exact ⟨h1, h2⟩
      · exact h3 p hp
    · intro h
      exact ⟨⟨(h (k, x) (Or.inl rfl)).1, (h (k, x) (Or.inl rfl)).2⟩,
        fun p hp => h p (Or.inr hp)⟩

/-- a field of an upserted list is an old field or the new pair. -/
theorem mem_upsert : ∀ (acc : List (List Char × JsVal)) (k : List Char) (v : JsVal)
    (p : List Char × JsVal), p ∈ upsert acc (k, v) → p ∈ acc ∨ p = (k, v)
  | [], k, v, p => by simp [upsert]
  | (k', v') :: rest, k, v, p => by
    simp only [upsert]
    split
    · rename_i hk
      subst hk
      intro hp
      rcases List.mem_cons.mp hp with rfl | hp
      · right; rfl
      · left; exact List.mem_cons_of_mem _ hp
    · intro hp
      rcases List.mem_cons.mp hp with rfl | hp
      · left; exact List.mem_cons_self _ _
      · rcases mem_upsert rest k v p hp with h | h
        · left; exact List.mem_cons_of_mem _ h
        · right; exact h

/-- keys after an upsert: unchanged when the key is present, appended once
when it is fresh. -/
theorem fst_upsert : ∀ (acc : List (List Char × JsVal)) (k : List Char) (v : JsVal),
    (upsert acc (k, v)).map Prod.fst
      = if k ∈ acc.map Prod.fst then acc.map Prod.fst else acc.map Prod.fst ++ [k]
  | [], k, v => by simp [upsert]
  | (k', v') :: rest, k, v => by
    simp only [upsert]
    by_cases hk : k' = k
    · subst hk
      simp
    · rw [if_neg hk]
      simp only [List.map_cons, fst_upsert rest k v, List.mem_cons]
      by_cases hmem : k ∈ rest.map Prod.fst
      · rw [if_pos hmem, if_pos (Or.inr hmem)]
      · rw [if_neg hmem, if_neg (by
          intro hcon
          rcases hcon with h | h
          · exact hk h.symm
          · exact hmem h)]
        simp

/-- an upsert keeps the keys distinct. -/
theorem nodup_upsert (acc : List (List Char × JsVal)) (k : List Char) (v : JsVal)
    (h : (acc.map Prod.fst).Nodup) : ((upsert acc (k, v)).map Prod.fst).Nodup := by
  rw [fst_upsert]
  split
  · exact h
  · rename_i hk
    simp only [List.nodup_append, List.nodup_cons, List.nodup_nil]
    exact ⟨h, ⟨by simp, trivial⟩, by
      intro a ha hax
      rw [List.mem_singleton.mp hax] at ha
      exact hk ha⟩

/-- the fold of upserts keeps keys distinct and fields good. -/
theorem dedup_aux_good : ∀ (ms acc : List (List Char × JsVal)),
    (acc.map Prod.fst).Nodup →
    (∀ p ∈ acc, goodStr p.1 = true ∧ goodV p.2 = true) →
    (∀ p ∈ ms, goodStr p.1 = true ∧ goodV p.2 = true) →
    ((ms.foldl upsert acc).map Prod.fst).Nodup
      ∧ ∀ p ∈ ms.foldl upsert acc, goodStr p.1 = true ∧ goodV p.2 = true
  | [], acc, hnd, hacc, _ => ⟨hnd, hacc⟩
  | (k, x) :: ms, acc, hnd, hacc, hms => by
    have h1 := nodup_upsert acc k x hnd
    have h2 : ∀ p ∈ upsert acc (k, x), goodStr p.1 = true ∧ goodV p.2 = true := by
      intro p hp
      rcases mem_upsert acc k x p hp with h | rfl
      · exact hacc p h
      · exact hms (k, x) (List.mem_cons_self _ _)
    exact dedup_aux_good ms (upsert acc (k, x)) h1 h2
      (fun p hp => hms p (List.mem_cons_of_mem _ hp))

/-- deduplicated good fields form a good object. -/
theorem dedupFields_good {ms : List (List Char × JsVal)} (h : goodMembers ms = true) :
    goodV (.obj (dedupFields ms)) = true := by
  have hall := dedup_aux_good ms [] (by simp) (by simp) ((goodMembers_iff ms).mp h)
  rw [show goodV (.obj (dedupFields ms))
      = (decide ((dedupFields ms).map Prod.fst).Nodup && goodMembers (dedupFields ms)) by
    simp [goodV]]
  rw [Bool.and_eq_true, decide_eq_true_eq]
  exact ⟨hall.1, (goodMembers_iff _).mpr hall.2⟩

/-- every value the parser produces is good: strings within the escape set
and object keys distinct at every level. -/
theorem parseCore_good : ∀ (fuel : Nat) (mode : PMode) (s : List Char) (res : PRes)
    (rest : List Char), parseCore fuel mode s = some (res, rest) → goodRes res = true := by
  intro fuel
  induction fuel with
  | zero =>
    intro mode s res rest h
    simp [parseCore] at h
  | succ f ih =>
    intro mode s res rest h
    cases mode with
    | val =>
      rw [parseCore] at h
      split at h
      · simp at h
      · split at h
        · split at h
          · injection h with h'
            injection h' with h1 h2
            subst h1
            simp [goodRes, goodV]
          · simp at h
        · split at h
          · split at h
            · injection h with h'
              injection h' with h1 h2
              subst h1
              simp [goodRes, goodV]
            · simp at h
          · split at h
            · split at h
              · injection h with h'
                injection h' with h1 h2
                subst h1
                simp [goodRes, goodV]
              · simp at h
            · split at h
              · split at h
                · rename_i cs r1 heq
                  injection h with h'
                  injection h' with h1 h2
                  subst h1
                  simpa [goodRes, goodV] using parseStr_good _ _ _ heq
                · simp at h
              · split at h
                · split at h
                  · simp at h
                  · split at h
                    · injection h with h'
                      injection h' with h1 h2
                      subst h1
                      simp [goodRes, goodV, goodElems]
                    · split at h
                      · rename_i xs r2 heq
                        injection h with h'
                        injection h' with h1 h2
                        subst h1
                        simpa [goodRes, goodV] using ih .elems _ _ _ heq
                      · simp at h
                · split at h
                  · split at h
                    · simp at h
                    · split at h
                      · injection h with h'
                        injection h' with h1 h2
                        subst h1
                        simp [goodRes, goodV, goodMembers]
                      · split at h
                        · rename_i xs r2 heq
                          injection h with h'
                          injection h' with h1 h2
                          subst h1
                          have hm : goodMembers xs = true := by
                            simpa [goodRes] using ih .members _ _ _ heq
                          simpa [goodRes] using dedupFields_good hm
                        · simp at h
                  · split at h
                    · split at h
                      · injection h with h'
                        injection h' with h1 h2
                        subst h1
                        simp [goodRes, goodV]
                      · simp at h
                    · split at h
                      · split at h
                        · injection h with h'
                          injection h' with h1 h2
                          subst h1
                          simp [goodRes, goodV]
                        · simp at h
                      · simp at h
    | elems =>
      rw [parseCore] at h
      split at h
      · rename_i x r heq1
        split at h
        · simp at h
        · split at h
          · split at h
            · rename_i xs r2 heq2
              injection h with h'
              injection h' with h1 h2
              subst h1
              have g1 : goodV x = true := by simpa [goodRes] using ih .val _ _ _ heq1
              have g2 : goodElems xs = true := by simpa [goodRes] using ih .elems _ _ _ heq2
              simp [goodRes, goodElems, g1, g2]
            · simp at h
          · split at h
            · injection h with h'
              injection h' with h1 h2
              subst h1
              have g1 : goodV x = true := by simpa [goodRes] using ih .val _ _ _ heq1
              simp [goodRes, goodElems, g1]
            · simp at h
      · simp at h
    | members =>
      rw [parseCore] at h
      split at h
      · simp at h
      · split at h
        · split at h
          · simp at h
          · rename_i k r1 heq1
            split at h
            · simp at h
            · split at h
              · split at h
                · rename_i x r3 heq2
                  split at h
                  · simp at h
                  · split at h
                    · split at h
                      · rename_i xs r5 heq3
                        injection h with h'
                        injection h' with h1 h2
                        subst h1
                        have gk : goodStr k = true := parseStr_good _ _ _ heq1
                        have gx : goodV x = true := by simpa [goodRes] using ih .val _ _ _ heq2
                        have gm : goodMembers xs = true := by
                          simpa [goodRes] using ih .members _ _ _ heq3
                        simp [goodRes, goodMembers, gk, gx, gm]
                      · simp at h
                    · split at h
                      · injection h with h'
                        injection h' with h1 h2
                        subst h1
                        have gk : goodStr k = true := parseStr_good _ _ _ heq1
                        have gx : goodV x = true := by simpa [goodRes] using ih .val _ _ _ heq2
                        simp [goodRes, goodMembers, gk, gx]
                      · simp at h
                · simp at h
              · simp at h
        · simp at h

/-- every value JSON.parse produces is good. -/
theorem parseJson_good {s : List Char} {v : JsVal} (h : parseJson s = some v) :
    goodV v = true := by
  simp only [parseJson] at h
  split at h
  · rename_i x r heq
    split at h
    · have := parseCore_good _ _ _ _ _ heq
      simp only [goodRes] at this
      injection h with h1
      subst h1
      exact this
    · simp at h
  · simp at h

/-- the escape of any character never writes a newline. -/
theorem escapeChar_no_nl (c : Char) : '\n' ∉ escapeChar c := by
  unfold escapeChar
  split_ifs with h1 h2 h3 h4 h5 h6 h7
  · decide
  · decide
  · decide
  · decide
  · decide
  · decide
  · decide
  · simp only [List.mem_singleton]
    exact fun hh => h3 hh.symm

/-- a string body never holds a newline. -/
theorem escChars_no_nl : ∀ s : List Char, '\n' ∉ escChars s
  | [] => by simp [escChars]
  | c :: cs => by
    rw [escChars_cons]
    intro h
    rcases List.mem_append.mp h with h | h
    · exact escapeChar_no_nl c h
    · exact escChars_no_nl cs h

/-- a printed integer never holds a newline. -/
theorem intChars_no_nl (n : Int) : '\n' ∉ intChars n := by
  unfold intChars
  split
  · intro h
    rcases List.mem_cons.mp h with h | h
    · exact absurd h (by decide)
    · exact absurd (natChars_all_digits _ _ h) (by decide)
  · intro h
    exact absurd (natChars_all_digits _ _ h) (by decide)

mutual
theorem serializeV_no_nl : ∀ v : JsVal, '\n' ∉ serializeV v
  | .null => by decide
  | .bool true => by decide
  | .bool false => by decide
  | .num n => by
    rw [show serializeV (.num n) = intChars n from rfl]
    exact intChars_no_nl n
  | .str s => by
    rw [show serializeV (.str s) = '"' :: (escChars s ++ ['"']) by simp [serializeV]]
    intro h
    rcases List.mem_cons.mp h with h | h
    · exact absurd h (by decide)
    · rcases List.mem_append.mp h with h | h
      · exact escChars_no_nl s h
      · exact absurd h (by decide)
  | .arr [] => by decide
  | .arr (v :: vs) => by
    rw [show serializeV (.arr (v :: vs))
        = '[' :: ((serializeV v ++ serializeElems vs) ++ [']']) by simp [serializeV]]
    intro h
    rcases List.mem_cons.mp h with h | h
    · exact absurd h (by decide)
    · rcases List.mem_append.mp h with h | h
      · rcases List.mem_append.mp h with h | h
        · exact serializeV_no_nl v h
        · exact serializeElems_no_nl vs h
      · exact absurd h (by decide)
  | .obj [] => by decide
  | .obj (m :: ms) => by
    rw [show serializeV (.obj (m :: ms))
        = '{' :: ((serializeMember m ++ serializeMembers ms) ++ ['}']) by simp [serializeV]]
    intro h
    rcases List.mem_cons.mp h with h | h
    · exact absurd h (by decide)
    · rcases List.mem_append.mp h with h | h
      · rcases List.mem_append.mp h with h | h
        · exact serializeMember_no_nl m h
        · exact serializeMembers_no_nl ms h
      · exact absurd h (by decide)
termination_by v => sizeOf v
decreasing_by
all_goals simp_wf
all_goals omega
theorem serializeElems_no_nl : ∀ vs : List JsVal, '\n' ∉ serializeElems vs
  | [] => by simp [serializeElems]
  | v :: vs => by
    rw [show serializeElems (v :: vs) = ',' :: (serializeV v ++ serializeElems vs) by
      simp [serializeElems]]
    intro h
    rcases List.mem_cons.mp h with h | h
    · exact absurd h (by decide)
    · rcases List.mem_append.mp h with h | h
      · exact serializeV_no_nl v h
      · exact serializeElems_no_nl vs h
termination_by vs => sizeOf vs
decreasing_by
all_goals simp_wf
all_goals omega
theorem serializeMember_no_nl : ∀ m : List Char × JsVal, '\n' ∉ serializeMember m
  | (k, x) => by
    rw [show serializeMember (k, x)
        = ('"' :: escChars k) ++ ('"' :: ':' :: serializeV x) by simp [serializeMember]]
    intro h
    rcases List.mem_append.mp h with h | h
    · rcases List.mem_cons.mp h with h | h
      · exact absurd h (by decide)
      · exact escChars_no_nl k h
    · rcases List.mem_cons.mp h with h | h
      · exact absurd h (by decide)
      · rcases List.mem_cons.mp h with h | h
        · exact absurd h (by decide)
        · exact serializeV_no_nl x h
termination_by m => sizeOf m
decreasing_by
all_goals simp_wf
theorem serializeMembers_no_nl : ∀ ms : List (List Char × JsVal), '\n' ∉ serializeMembers ms
  | [] => by simp [serializeMembers]
  | m :: ms => by
    rw [show serializeMembers (m :: ms) = ',' :: (serializeMember m ++ serializeMembers ms) by
      simp [serializeMembers]]
    intro h
    rcases List.mem_cons.mp h with h | h
    · exact absurd h (by decide)
    · rcases List.mem_append.mp h with h | h
      · exact serializeMember_no_nl m h
      · exact serializeMembers_no_nl ms h
termination_by ms => sizeOf ms
decreasing_by
all_goals simp_wf
all_goals omega
end

/-- no serialized value is the sentinel payload. -/
theorem serializeV_ne_doneBody : ∀ v : JsVal, serializeV v ≠ doneBody
  | .null => by decide
  | .bool true => by decide
  | .bool false => by decide
  | .num n => by
    intro hcon
    have hmem : '[' ∈ intChars n := by
      rw [show intChars n = serializeV (.num n) from rfl, hcon]
      decide
    unfold intChars at hmem
    split at hmem
    · rcases List.mem_cons.mp hmem with h | h
      · exact absurd h (by decide)
      · exact absurd (natChars_all_digits _ _ h) (by decide)
    · exact absurd (natChars_all_digits _ _ hmem) (by decide)
  | .str s => by
    intro hcon
    rw [show serializeV (.str s) = '"' :: (escChars s ++ ['"']) by simp [serializeV],
      show doneBody = '[' :: ['D', 'O', 'N', 'E', ']'] from rfl] at hcon
    injection hcon with h1 _
    exact absurd h1 (by decide)
  | .arr [] => by decide
  | .arr (v :: vs) => by
    intro hcon
    obtain ⟨c, t, hct, -, -, -, hcD⟩ := serializeV_head v
    rw [show serializeV (.arr (v :: vs))
        = '[' :: ((serializeV v ++ serializeElems vs) ++ [']']) by simp [serializeV],
      hct] at hcon
    simp only [List.cons_append, List.append_assoc] at hcon
    rw [show doneBody = '[' :: 'D' :: ['O', 'N', 'E', ']'] from rfl] at hcon
    injection hcon with h1 h2
    injection h2 with h2 _
    exact hcD h2
  | .obj [] => by decide
  | .obj (m :: ms) => by
    intro hcon
    rw [show serializeV (.obj (m :: ms))
        = '{' :: ((serializeMember m ++ serializeMembers ms) ++ ['}']) by simp [serializeV],
      show doneBody = '[' :: ['D', 'O', 'N', 'E', ']'] from rfl] at hcon
    injection hcon with h1 _
    exact absurd h1 (by decide)

/-- after the message filter, the key is gone. -/
theorem lookupKey_filter_ne : ∀ (ms : List (List Char × JsVal)) (k : List Char),
    lookupKey (ms.filter fun p => p.1 ≠ k) k = none
  | [], k => by simp [lookupKey]
  | (k', v) :: ms, k => by
    by_cases h : k' = k
    · simp only [List.filter_cons]
      rw [if_neg (by simp [h])]
      exact lookupKey_filter_ne ms k
    · simp only [List.filter_cons]
      rw [if_pos (by simpa using h)]
      rw [show lookupKey ((k', v) :: ms.filter fun p => p.1 ≠ k) k
          = lookupKey (ms.filter fun p => p.1 ≠ k) k by simp [lookupKey, h]]
      exact lookupKey_filter_ne ms k

/-- a written field reads back. -/
theorem lookupKey_setKey : ∀ (ms : List (List Char × JsVal)) (k : List Char) (x : JsVal),
    lookupKey (setKey ms k x) k = some x
  | [], k, x => by simp [setKey, lookupKey]
  | (k', v) :: ms, k, x => by
    by_cases h : k' = k
    · simp [setKey, h, lookupKey]
    · simp only [setKey]
      rw [if_neg h]
      rw [show lookupKey ((k', v) :: setKey ms k x) k = lookupKey (setKey ms k x) k by
        simp [lookupKey, h]]
      exact lookupKey_setKey ms k x

/-- writing back the value already present changes nothing. -/
theorem setKey_self : ∀ (ms : List (List Char × JsVal)) (k : List Char) (x : JsVal),
    lookupKey ms k = some x → setKey ms k x = ms
  | [], k, x => by simp [lookupKey]
  | (k', v) :: ms, k, x => by
    intro hl
    by_cases h : k' = k
    · rw [show lookupKey ((k', v) :: ms) k = some v by simp [lookupKey, h]] at hl
      injection hl with hv
      simp [setKey, h, hv]
    · rw [show lookupKey ((k', v) :: ms) k = lookupKey ms k by simp [lookupKey, h]] at hl
      simp [setKey, h, setKey_self ms k x hl]

/-- a field of a written list is an old field or the written pair. -/
theorem mem_setKey : ∀ (ms : List (List Char × JsVal)) (k : List Char) (x : JsVal)
    (p : List Char × JsVal), p ∈ setKey ms k x → p ∈ ms ∨ p = (k, x)
  | [], k, x, p => by simp [setKey]
  | (k', v) :: ms, k, x, p => by
    simp only [setKey]
    split
    · rename_i hk
      subst hk
      intro hp
      rcases List.mem_cons.mp hp with rfl | hp
      · right; rfl
      · left; exact List.mem_cons_of_mem _ hp
    · intro hp
      rcases List.mem_cons.mp hp with rfl | hp
      · left; exact List.mem_cons_self _ _
      · rcases mem_setKey ms k x p hp with h | h
        · left; exact List.mem_cons_of_mem _ h
        · right; exact h

/-- keys after a write: unchanged when present, appended once when fresh. -/
theorem fst_setKey : ∀ (ms : List (List Char × JsVal)) (k : List Char) (x : JsVal),
    (setKey ms k x).map Prod.fst
      = if k ∈ ms.map Prod.fst then ms.map Prod.fst else ms.map Prod.fst ++ [k]
  | [], k, x => by simp [setKey]
  | (k', v) :: ms, k, x => by
    simp only [setKey]
    by_cases hk : k' = k
    · subst hk
      simp
    · rw [if_neg hk]
      simp only [List.map_cons, fst_setKey ms k x, List.mem_cons]
      by_cases hmem : k ∈ ms.map Prod.fst
      · rw [if_pos hmem, if_pos (Or.inr hmem)]
      · rw [if_neg hmem, if_neg (by
          intro hcon
          rcases hcon with h | h
          · exact hk h.symm
          · exact hmem h)]
        simp

/-- writing a good value under a good key keeps an object good. -/
theorem goodV_obj_setKey {ms : List (List Char × JsVal)} {k : List Char} {x : JsVal}
    (hg : goodV (.obj ms) = true) (hk : goodStr k = true) (hx : goodV x = true) :
    goodV (.obj (setKey ms k x)) = true := by
  simp only [goodV, Bool.and_eq_true, decide_eq_true_eq] at hg ⊢
  constructor
  · rw [fst_setKey]
    split
    · exact hg.1
    · rename_i hmem
      simp only [List.nodup_append, List.nodup_cons, List.nodup_nil]
      exact ⟨hg.1, ⟨by simp, trivial⟩, by
        intro a ha hax
        rw [List.mem_singleton.mp hax] at ha
        exact hmem ha⟩
  · rw [goodMembers_iff]
    intro p hp
    rcases mem_setKey ms k x p hp with h | h
    · exact (goodMembers_iff ms).mp hg.2 p h
    · rw [h]
      exact ⟨hk, hx⟩

/-- dropping fields keeps an object good. -/
theorem goodV_obj_filter {ms : List (List Char × JsVal)} {k : List Char}
    (hg : goodV (.obj ms) = true) :
    goodV (.obj (ms.filter fun p => p.1 ≠ k)) = true := by
  simp only [goodV, Bool.and_eq_true, decide_eq_true_eq] at hg ⊢
  constructor
  · exact List.Sublist.nodup (List.Sublist.map Prod.fst (List.filter_sublist ms)) hg.1
  · rw [goodMembers_iff]
    intro p hp
    exact (goodMembers_iff ms).mp hg.2 p (List.mem_of_mem_filter hp)

/-- the stream choice sweep keeps values good. -/
theorem sseChoice_good : ∀ {c c' : JsVal}, goodV c = true → sseChoice c = some c' →
    goodV c' = true := by
  intro c c' hg h
  cases c with
  | null => simp [sseChoice] at h
  | bool b =>
    simp only [sseChoice, getField, truthyOpt, Bool.false_and] at h
    rw [if_neg (by decide)] at h
    injection h with h1
    rw [← h1]
    exact hg
  | num n =>
    simp only [sseChoice, getField, truthyOpt, Bool.false_and] at h
    rw [if_neg (by decide)] at h
    injection h with h1
    rw [← h1]
    exact hg
  | str s =>
    simp only [sseChoice, getField, truthyOpt, Bool.false_and] at h
    rw [if_neg (by decide)] at h
    injection h with h1
    rw [← h1]
    exact hg
  | arr vs =>
    simp only [sseChoice, getField, truthyOpt, Bool.false_and] at h
    rw [if_neg (by decide)] at h
    injection h with h1
    rw [← h1]
    exact hg
  | obj ms =>
    simp only [sseChoice] at h
    split at h
    · injection h with h1
      rw [← h1]
      rw [show removeField (.obj ms) messageKey
          = .obj (ms.filter fun p => p.1 ≠ messageKey) from rfl]
      exact goodV_obj_filter hg
    · injection h with h1
      rw [← h1]
      exact hg

/-- the stream choice sweep is settled after one pass. -/
theorem sseChoice_idem : ∀ {c c' : JsVal}, sseChoice c = some c' →
    sseChoice c' = some c' := by
  intro c c' h
  cases c with
  | null => simp [sseChoice] at h
  | bool b =>
    simp only [sseChoice, getField, truthyOpt, Bool.false_and] at h
    rw [if_neg (by decide)] at h
    injection h with h1
    rw [← h1]
    simp [sseChoice, getField, truthyOpt]
  | num n =>
    simp only [sseChoice, getField, truthyOpt, Bool.false_and] at h
    rw [if_neg (by decide)] at h
    injection h with h1
    rw [← h1]
    simp [sseChoice, getField, truthyOpt]
  | str s =>
    simp only [sseChoice, getField, truthyOpt, Bool.false_and] at h
    rw [if_neg (by decide)] at h
    injection h with h1
    rw [← h1]
    simp [sseChoice, getField, truthyOpt]
  | arr vs =>
    simp only [sseChoice, getField, truthyOpt, Bool.false_and] at h
    rw [if_neg (by decide)] at h
    injection h with h1
    rw [← h1]
    simp [sseChoice, getField, truthyOpt]
  | obj ms =>
    simp only [sseChoice] at h
    split at h
    · injection h with h1
      rw [← h1]
      rw [show removeField (.obj ms) messageKey
          = .obj (ms.filter fun p => p.1 ≠ messageKey) from rfl]
      simp only [sseChoice]
      rw [if_neg]
      intro hcon
      rw [Bool.and_eq_true] at hcon
      have hfalse : truthyOpt (getField
          (.obj (ms.filter fun p => p.1 ≠ messageKey)) messageKey) = false := by
        rw [show getField (.obj (ms.filter fun p => p.1 ≠ messageKey)) messageKey
            = lookupKey (ms.filter fun p => p.1 ≠ messageKey) messageKey from rfl]
        rw [lookupKey_filter_ne]
        rfl
      rw [hcon.2] at hfalse
      exact absurd hfalse (by decide)
    · rename_i hcond
      injection h with h1
      rw [← h1]
      simp only [sseChoice]
      rw [if_neg hcond]

/-- the option monad map over a list, empty case. -/
theorem mapM_opt_nil (f : JsVal → Option JsVal) : ([] : List JsVal).mapM f = some [] := by
  rw [← List.mapM'_eq_mapM]
  rfl

/-- the option monad map over a list, cons case. -/
theorem mapM_opt_cons (f : JsVal → Option JsVal) (c : JsVal) (cs : List JsVal) :
    (c :: cs).mapM f
      = (f c).bind fun x => (cs.mapM f).bind fun xs => some (x :: xs) := by
  rw [← List.mapM'_eq_mapM, ← List.mapM'_eq_mapM]
  rfl

/-- inversion of a successful option map: heads and tails. -/
theorem mapM_opt_cons_inv {f : JsVal → Option JsVal} {c : JsVal} {cs res : List JsVal}
    (h : (c :: cs).mapM f = some res) :
    ∃ c' cs', f c = some c' ∧ cs.mapM f = some cs' ∧ res = c' :: cs' := by
  rw [mapM_opt_cons] at h
  cases hc : f c with
  | none => rw [hc] at h; simp at h
  | some c' =>
    rw [hc] at h
    cases hcs : cs.mapM f with
    | none => rw [hcs] at h; simp at h
    | some cs' =>
      rw [hcs] at h
      simp only [Option.some_bind] at h
      injection h with h1
      exact ⟨c', cs', rfl, rfl, h1.symm⟩

/-- a successful sweep of good choices yields good choices. -/
theorem mapM_sseChoice_good : ∀ {cs cs' : List JsVal}, goodElems cs = true →
    cs.mapM sseChoice = some cs' → goodElems cs' = true
  | [], cs', _, h => by
    rw [mapM_opt_nil] at h
    injection h with h1
    rw [← h1]
    simp [goodElems]
  | c :: cs, res, hg, h => by
    obtain ⟨c', cs', hc, hcs, rfl⟩ := mapM_opt_cons_inv h
    have hgs : goodV c = true ∧ goodElems cs = true := by simpa [goodElems] using hg
    have g1 := sseChoice_good hgs.1 hc
    have g2 := mapM_sseChoice_good hgs.2 hcs
    simp [goodElems, g1, g2]

/-- a second sweep over swept choices returns them unchanged. -/
theorem mapM_sseChoice_idem : ∀ {cs cs' : List JsVal},
    cs.mapM sseChoice = some cs' → cs'.mapM sseChoice = some cs'
  | [], cs', h => by
    rw [mapM_opt_nil] at h
    injection h with h1
    rw [← h1]
    exact mapM_opt_nil _
  | c :: cs, res, h => by
    obtain ⟨c', cs', hc, hcs, rfl⟩ := mapM_opt_cons_inv h
    rw [mapM_opt_cons, sseChoice_idem hc, mapM_sseChoice_idem hcs]
    rfl

/-- a found field is one of the fields. -/
theorem lookupKey_mem : ∀ (ms : List (List Char × JsVal)) (k : List Char) (x : JsVal),
    lookupKey ms k = some x → (k, x) ∈ ms
  | [], k, x => by simp [lookupKey]
  | (k', v) :: ms, k, x => by
    intro h
    by_cases hk : k' = k
    · rw [show lookupKey ((k', v) :: ms) k = some v by simp [lookupKey, hk]] at h
      injection h with h1
      subst hk
      rw [← h1]
      exact List.mem_cons_self _ _
    · rw [show lookupKey ((k', v) :: ms) k = lookupKey ms k by simp [lookupKey, hk]] at h
      exact List.mem_cons_of_mem _ (lookupKey_mem ms k x h)

/-- only an object answers a field read. -/
theorem getField_some_obj {v : JsVal} {k : List Char} {x : JsVal}
    (h : getField v k = some x) : ∃ ms, v = .obj ms := by
  cases v with
  | obj ms => exact ⟨ms, rfl⟩
  | null => simp [getField] at h
  | bool b => simp [getField] at h
  | num n => simp [getField] at h
  | str s => simp [getField] at h
  | arr vs => simp [getField] at h

/-- the data mark heads its own continuation. -/
theorem dataMark_isPrefixOf (x : List Char) : dataMark.isPrefixOf (dataMark ++ x) = true := by
  rw [List.isPrefixOf_iff_prefix]
  exact List.prefix_append _ _

/-- a re-emitted payload is never the sentinel line. -/
theorem dataMark_serialize_ne_doneLine (v : JsVal) :
    dataMark ++ serializeV v ≠ doneLine := by
  rw [show doneLine = dataMark ++ doneBody from rfl]
  intro h
  exact serializeV_ne_doneBody v (List.append_cancel_left h)

/-- dropping the six mark characters recovers the payload. -/
theorem dataMark_drop6 (x : List Char) : (dataMark ++ x).drop 6 = x := by
  rfl

/-- the stream line transform without the data mark, or on the sentinel:
identity. -/
theorem sseTransformLine_not_data {line : List Char}
    (h : ¬(dataMark.isPrefixOf line ∧ line ≠ doneLine)) : sseTransformLine line = line := by
  rw [sseTransformLine, if_neg h]

/-- the stream line transform on an unparsable payload: identity. -/
theorem sseTransformLine_noparse {line : List Char}
    (hp : dataMark.isPrefixOf line ∧ line ≠ doneLine)
    (hn : parseJson (line.drop 6) = none) : sseTransformLine line = line := by
  rw [sseTransformLine, if_pos hp, hn]

/-- the stream line transform on a parsed null payload: the choices read
raises, the catch keeps the line. -/
theorem sseTransformLine_null {line : List Char}
    (hp : dataMark.isPrefixOf line ∧ line ≠ doneLine)
    (hv : parseJson (line.drop 6) = some .null) : sseTransformLine line = line := by
  rw [sseTransformLine, if_pos hp, hv]

/-- the stream line transform with a choices array and a clean sweep. -/
theorem sseTransformLine_arr {line : List Char} {v : JsVal} {cs cs' : List JsVal}
    (hp : dataMark.isPrefixOf line ∧ line ≠ doneLine)
    (hv : parseJson (line.drop 6) = some v)
    (hgf : getField v choicesKey = some (.arr cs))
    (hmm : cs.mapM sseChoice = some cs') :
    sseTransformLine line = dataMark ++ serializeV (setField v choicesKey (.arr cs')) := by
  obtain ⟨ms, rfl⟩ := getField_some_obj hgf
  rw [sseTransformLine, if_pos hp, hv]
  dsimp only
  rw [hgf]
  dsimp only
  rw [hmm]

/-- the stream line transform with a choices array whose sweep raises:
identity. -/
theorem sseTransformLine_sweep_fail {line : List Char} {v : JsVal} {cs : List JsVal}
    (hp : dataMark.isPrefixOf line ∧ line ≠ doneLine)
    (hv : parseJson (line.drop 6) = some v)
    (hgf : getField v choicesKey = some (.arr cs))
    (hmm : cs.mapM sseChoice = none) : sseTransformLine line = line := by
  obtain ⟨ms, rfl⟩ := getField_some_obj hgf
  rw [sseTransformLine, if_pos hp, hv]
  dsimp only
  rw [hgf]
  dsimp only
  rw [hmm]

/-- the stream line transform on a parsed non-null payload without a choices
array: plain re-emission. -/
theorem sseTransformLine_nonarr {line : List Char} {v : JsVal}
    (hp : dataMark.isPrefixOf line ∧ line ≠ doneLine)
    (hv : parseJson (line.drop 6) = some v)
    (hnn : v ≠ .null)
    (hna : ∀ cs : List JsVal, getField v choicesKey ≠ some (.arr cs)) :
    sseTransformLine line = dataMark ++ serializeV v := by
  rw [sseTransformLine, if_pos hp, hv]
  cases v with
  | null => exact absurd rfl hnn
  | bool b => rfl
  | num n => rfl
  | str s => rfl
  | arr vs => rfl
  | obj ms =>
    dsimp only
    cases hg : getField (.obj ms) choicesKey with
    | none => rfl
    | some x =>
      cases x with
      | arr cs => exact absurd hg (hna cs)
      | null => rfl
      | bool b => rfl
      | num n => rfl
      | str s => rfl
      | obj ms2 => rfl

/-- a second pass over a re-emitted non-null payload without choices is
stable. -/
theorem sseTransformLine_idem_nonarr_aux {line : List Char} {v : JsVal}
    (hp : dataMark.isPrefixOf line ∧ line ≠ doneLine)
    (hpj : parseJson (line.drop 6) = some v)
    (hgood : goodV v = true) (hnn : v ≠ .null)
    (hna : ∀ cs : List JsVal, getField v choicesKey ≠ some (.arr cs)) :
    sseTransformLine (sseTransformLine line) = sseTransformLine line := by
  have h1 := sseTransformLine_nonarr hp hpj hnn hna
  have h2 := sseTransformLine_nonarr
    ⟨dataMark_isPrefixOf _, dataMark_serialize_ne_doneLine _⟩
    (by rw [dataMark_drop6]; exact parseJson_serializeV v hgood) hnn hna
  rw [h1, h2]

/-- one pass of the stream line transform settles it. -/
theorem sseTransformLine_idem (line : List Char) :
    sseTransformLine (sseTransformLine line) = sseTransformLine line := by
  by_cases hp : dataMark.isPrefixOf line ∧ line ≠ doneLine
  · cases hpj : parseJson (line.drop 6) with
    | none =>
      rw [sseTransformLine_noparse hp hpj]
      exact sseTransformLine_noparse hp hpj
    | some v =>
      have hgood : goodV v = true := parseJson_good hpj
      by_cases hnull : v = JsVal.null
      · subst hnull
        rw [sseTransformLine_null hp hpj]
        exact sseTransformLine_null hp hpj
      · cases hgf : getField v choicesKey with
        | some x =>
          cases x with
          | arr cs =>
            obtain ⟨ms, rfl⟩ := getField_some_obj hgf
            cases hmm : cs.mapM sseChoice with
            | some cs' =>
              have hgcs : goodElems cs = true := by
                have hmem := lookupKey_mem ms choicesKey (.arr cs) hgf
                have := (goodMembers_iff ms).mp (by
                  simp only [goodV, Bool.and_eq_true] at hgood
                  exact hgood.2) _ hmem
                simpa [goodV] using this.2
              have hgood' : goodV (setField (.obj ms) choicesKey (.arr cs')) = true := by
                rw [show setField (.obj ms) choicesKey (.arr cs')
                    = .obj (setKey ms choicesKey (.arr cs')) from rfl]
                exact goodV_obj_setKey hgood (by decide)
                  (by simpa [goodV] using mapM_sseChoice_good hgcs hmm)
              have h1 := sseTransformLine_arr hp hpj hgf hmm
              have hp2 : dataMark.isPrefixOf
                    (dataMark ++ serializeV (setField (.obj ms) choicesKey (.arr cs')))
                  ∧ dataMark ++ serializeV (setField (.obj ms) choicesKey (.arr cs'))
                    ≠ doneLine :=
                ⟨dataMark_isPrefixOf _, dataMark_serialize_ne_doneLine _⟩
              have hpj2 : parseJson ((dataMark
                  ++ serializeV (setField (.obj ms) choicesKey (.arr cs'))).drop 6)
                  = some (setField (.obj ms) choicesKey (.arr cs')) := by
                rw [dataMark_drop6]
                exact parseJson_serializeV _ hgood'
              have hgf2 : getField (setField (.obj ms) choicesKey (.arr cs')) choicesKey
                  = some (.arr cs') := by
                rw [show setField (.obj ms) choicesKey (.arr cs')
                    = .obj (setKey ms choicesKey (.arr cs')) from rfl]
                exact lookupKey_setKey ms choicesKey (.arr cs')
              have h2 := sseTransformLine_arr hp2 hpj2 hgf2 (mapM_sseChoice_idem hmm)
              rw [h1, h2]
              have hself : setField (setField (.obj ms) choicesKey (.arr cs')) choicesKey
                  (.arr cs') = setField (.obj ms) choicesKey (.arr cs') := by
                rw [show setField (.obj ms) choicesKey (.arr cs')
                    = .obj (setKey ms choicesKey (.arr cs')) from rfl]
                rw [show setField (.obj (setKey ms choicesKey (.arr cs'))) choicesKey
                    (.arr cs') = .obj (setKey (setKey ms choicesKey (.arr cs'))
                      choicesKey (.arr cs')) from rfl]
                rw [setKey_self _ _ _ (lookupKey_setKey ms choicesKey (.arr cs'))]
              rw [hself]
            | none =>
              rw [sseTransformLine_sweep_fail hp hpj hgf hmm]
              exact sseTransformLine_sweep_fail hp hpj hgf hmm
          | null =>
            exact sseTransformLine_idem_nonarr_aux hp hpj hgood hnull (fun cs hcon => by
              rw [hgf] at hcon
              injection hcon with hx
              exact JsVal.noConfusion hx)
          | bool b =>
            exact sseTransformLine_idem_nonarr_aux hp hpj hgood hnull (fun cs hcon => by
              rw [hgf] at hcon
              injection hcon with hx
              exact JsVal.noConfusion hx)
          | num n =>
            exact sseTransformLine_idem_nonarr_aux hp hpj hgood hnull (fun cs hcon => by
              rw [hgf] at hcon
              injection hcon with hx
              exact JsVal.noConfusion hx)
          | str s =>
            exact sseTransformLine_idem_nonarr_aux hp hpj hgood hnull (fun cs hcon => by
              rw [hgf] at hcon
              injection hcon with hx
              exact JsVal.noConfusion hx)
          | obj ms2 =>
            exact sseTransformLine_idem_nonarr_aux hp hpj hgood hnull (fun cs hcon => by
              rw [hgf] at hcon
              injection hcon with hx
              exact JsVal.noConfusion hx)
        | none =>
          exact sseTransformLine_idem_nonarr_aux hp hpj hgood hnull (fun cs hcon => by
            rw [hgf] at hcon
            exact Option.noConfusion hcon)
  · rw [sseTransformLine_not_data hp]
    exact sseTransformLine_not_data hp

/-- each output line keeps the line or re-emits a marked payload. -/
theorem sseTransformLine_cases (line : List Char) :
    sseTransformLine line = line
      ∨ ∃ w, sseTransformLine line = dataMark ++ serializeV w := by
  rw [sseTransformLine]
  split
  · split
    · left; rfl
    · left; rfl
    · split
      · split
        · right; exact ⟨_, rfl⟩
        · left; rfl
      · right; exact ⟨_, rfl⟩
  · left; rfl

/-- the line transform never introduces a newline. -/
theorem sseTransformLine_no_nl {line : List Char} (h : '\n' ∉ line) :
    '\n' ∉ sseTransformLine line := by
  rcases sseTransformLine_cases line with he | ⟨w, he⟩
  · rw [he]; exact h
  · rw [he]
    intro hm
    rcases List.mem_append.mp hm with hm | hm
    · exact absurd hm (by decide)
    · exact serializeV_no_nl w hm

/-- _transformSSEData is idempotent: a second pass returns its input. -/
theorem transformSSEData_idem (data : List Char) :
    transformSSEData (transformSSEData data) = transformSSEData data := by
  unfold transformSSEData
  rw [splitOnChar_joinChar
    (by
      intro hcon
      exact splitOnChar_ne_nil '\n' data (List.map_eq_nil_iff.mp hcon))
    (by
      intro l hl
      rcases List.mem_map.mp hl with ⟨l₀, hl₀, rfl⟩
      exact sseTransformLine_no_nl (not_mem_of_mem_splitOnChar '\n' data l₀ hl₀))]
  rw [List.map_map]
  congr 1
  apply List.map_congr_left
  intro a _
  exact sseTransformLine_idem a

/-- every serialized value ends in a non-whitespace character. -/
theorem serializeV_last (v : JsVal) :
    ∃ t c, serializeV v = t ++ [c] ∧ wsChar c = false := by
  cases v with
  | null => exact ⟨['n', 'u', 'l'], 'l', rfl, by decide⟩
  | bool b =>
    cases b
    · exact ⟨['f', 'a', 'l', 's'], 'e', rfl, by decide⟩
    · exact ⟨['t', 'r', 'u'], 'e', rfl, by decide⟩
  | num n =>
    rw [show serializeV (.num n) = intChars n from rfl]
    unfold intChars
    split
    · rcases List.eq_nil_or_concat (natChars n.natAbs) with h | ⟨t, c, h⟩
      · exact absurd h (natChars_ne_nil _)
      · rw [List.concat_eq_append] at h
        refine ⟨'-' :: t, c, by rw [h]; rfl, ?_⟩
        exact wsChar_false_of_digit (natChars_all_digits _ c (by rw [h]; simp))
    · rcases List.eq_nil_or_concat (natChars n.toNat) with h | ⟨t, c, h⟩
      · exact absurd h (natChars_ne_nil _)
      · rw [List.concat_eq_append] at h
        refine ⟨t, c, h, ?_⟩
        exact wsChar_false_of_digit (natChars_all_digits _ c (by rw [h]; simp))
  | str s =>
    exact ⟨'"' :: escChars s, '"', by simp [serializeV], by decide⟩
  | arr vs =>
    cases vs with
    | nil => exact ⟨['['], ']', rfl, by decide⟩
    | cons v vs =>
      exact ⟨'[' :: (serializeV v ++ serializeElems vs), ']', by simp [serializeV], by decide⟩
  | obj ms =>
    cases ms with
    | nil => exact ⟨['\x7b'], '\x7d', rfl, by decide⟩
    | cons m ms =>
      exact ⟨'\x7b' :: (serializeMember m ++ serializeMembers ms), '\x7d',
        by simp [serializeV], by decide⟩

/-- a serialized value is already trimmed. -/
theorem trimChars_serializeV (v : JsVal) : trimChars (serializeV v) = serializeV v := by
  obtain ⟨c, t, hct, hws, -, -, -⟩ := serializeV_head v
  obtain ⟨t2, c2, hct2, hws2⟩ := serializeV_last v
  unfold trimChars
  rw [show (serializeV v).dropWhile wsChar = serializeV v by
    rw [hct]
    simp [List.dropWhile_cons, hws]]
  rw [hct2, List.reverse_append]
  simp only [List.reverse_singleton, List.singleton_append, List.dropWhile_cons, hws2]
  simp

/-- a numeral is never the message key. -/
theorem natChars_ne_messageKey (n : Nat) : natChars n ≠ messageKey := by
  obtain ⟨d, t, ht, hd, -⟩ := natChars_head_digit n
  rw [ht]
  intro hcon
  rw [show messageKey = 'm' :: ['e', 's', 's', 'a', 'g', 'e'] from rfl] at hcon
  injection hcon with h1 _
  have h2 := digitCh_toNat hd
  rw [h1] at h2
  rw [show ('m').toNat = 109 from rfl] at h2
  omega

/-- the index fields of a good string form a good object. -/
theorem goodV_strIndexFields {s : List Char} (hg : goodStr s = true) :
    goodV (.obj (strIndexFields s)) = true := by
  simp only [goodV, Bool.and_eq_true, decide_eq_true_eq]
  constructor
  · have hkeys : (strIndexFields s).map Prod.fst = (List.range s.length).map natChars := by
      rw [show (List.range s.length).map natChars = (s.enum.map Prod.fst).map natChars by
        rw [List.enum_map_fst]]
      simp only [strIndexFields, List.map_map]
      exact List.map_congr_left fun a _ => rfl
    rw [hkeys]
    refine List.Nodup.map ?_ (List.nodup_range _)
    intro a b hab
    rw [← digitsToNat_natChars a, ← digitsToNat_natChars b, hab]
  · rw [goodMembers_iff]
    intro p hp
    rcases List.mem_map.mp hp with ⟨q, hq, rfl⟩
    constructor
    · rw [show goodStr (natChars q.1) = (natChars q.1).all goodChar from rfl]
      rw [List.all_eq_true]
      intro c hc
      have hdig := natChars_all_digits q.1 c hc
      simp only [isDigitCh, Bool.and_eq_true, decide_eq_true_eq] at hdig
      simp only [goodChar, Bool.or_eq_true, decide_eq_true_eq]
      left; left; left; left; left
      omega
    · have hmem : q.2 ∈ s := by
        have := List.enum_map_snd s
        exact this ▸ List.mem_map_of_mem Prod.snd hq
      rw [show goodV (.str [q.2]) = goodStr [q.2] from by simp [goodV]]
      simp only [goodStr, List.all_cons, List.all_nil, Bool.and_true]
      exact (List.all_eq_true.mp hg) q.2 hmem

/-- filtering a key out is settled after one pass. -/
theorem filter_ne_idem (ms : List (List Char × JsVal)) (k : List Char) :
    ((ms.filter fun p => p.1 ≠ k).filter fun p => p.1 ≠ k)
      = ms.filter fun p => p.1 ≠ k :=
  List.filter_eq_self.mpr fun _ ha => (List.mem_filter.mp ha).2

/-- no index field carries the message key. -/
theorem filter_strIndexFields (s : List Char) :
    ((strIndexFields s).filter fun p => p.1 ≠ messageKey) = strIndexFields s := by
  refine List.filter_eq_self.mpr fun a ha => ?_
  rcases List.mem_map.mp ha with ⟨q, -, rfl⟩
  simpa using natChars_ne_messageKey q.1

/-- membership characterisation of a good element list. -/
theorem goodElems_iff : ∀ vs : List JsVal,
    goodElems vs = true ↔ ∀ v ∈ vs, goodV v = true
  | [] => by simp [goodElems]
  | v :: vs => by
    rw [show goodElems (v :: vs) = (goodV v && goodElems vs) by simp [goodElems]]
    simp only [Bool.and_eq_true, goodElems_iff vs, List.mem_cons]
    constructor
    · rintro ⟨h1, h2⟩ w hw
      rcases hw with rfl | hw
      · exact h1
      · exact h2 w hw
    · intro h
      exact ⟨h v (Or.inl rfl), fun w hw => h w (Or.inr hw)⟩

/-- the index fields of a good array form a good object. -/
theorem goodV_arrIndexFields {vs : List JsVal} (hg : goodElems vs = true) :
    goodV (.obj (arrIndexFields vs)) = true := by
  simp only [goodV, Bool.and_eq_true, decide_eq_true_eq]
  constructor
  · have hkeys : (arrIndexFields vs).map Prod.fst = (List.range vs.length).map natChars := by
      rw [show (List.range vs.length).map natChars = (vs.enum.map Prod.fst).map natChars by
        rw [List.enum_map_fst]]
      simp only [arrIndexFields, List.map_map]
      exact List.map_congr_left fun a _ => rfl
    rw [hkeys]
    refine List.Nodup.map ?_ (List.nodup_range _)
    intro a b hab
    rw [← digitsToNat_natChars a, ← digitsToNat_natChars b, hab]
  · rw [goodMembers_iff]
    intro p hp
    rcases List.mem_map.mp hp with ⟨q, hq, rfl⟩
    constructor
    · rw [show goodStr (natChars q.1) = (natChars q.1).all goodChar from rfl]
      rw [List.all_eq_true]
      intro c hc
      have hdig := natChars_all_digits q.1 c hc
      simp only [isDigitCh, Bool.and_eq_true, decide_eq_true_eq] at hdig
      simp only [goodChar, Bool.or_eq_true, decide_eq_true_eq]
      left; left; left; left; left
      omega
    · have hmem : q.2 ∈ vs := by
        have := List.enum_map_snd vs
        exact this ▸ List.mem_map_of_mem Prod.snd hq
      exact (goodElems_iff vs).mp hg q.2 hmem

/-- no array index field carries the message key. -/
theorem filter_arrIndexFields (vs : List JsVal) :
    ((arrIndexFields vs).filter fun p => p.1 ≠ messageKey) = arrIndexFields vs := by
  refine List.filter_eq_self.mpr fun a ha => ?_
  rcases List.mem_map.mp ha with ⟨q, -, rfl⟩
  simpa using natChars_ne_messageKey q.1

/-- the openAI choice sweep keeps values good. -/
theorem openAIChoice_good : ∀ {c c' : JsVal}, goodV c = true → openAIChoice c = some c' →
    goodV c' = true := by
  intro c c' hg h
  cases c with
  | null => simp [openAIChoice] at h
  | obj ms =>
    rw [show openAIChoice (.obj ms)
        = some (.obj (ms.filter fun p => p.1 ≠ messageKey)) from rfl] at h
    injection h with h1
    rw [← h1]
    exact goodV_obj_filter hg
  | str s =>
    rw [show openAIChoice (.str s) = some (.obj (strIndexFields s)) from rfl] at h
    injection h with h1
    rw [← h1]
    exact goodV_strIndexFields (by simpa [goodV] using hg)
  | bool b =>
    rw [show openAIChoice (.bool b) = some (.obj []) from rfl] at h
    injection h with h1
    rw [← h1]
    simp [goodV, goodMembers]
  | num n =>
    rw [show openAIChoice (.num n) = some (.obj []) from rfl] at h
    injection h with h1
    rw [← h1]
    simp [goodV, goodMembers]
  | arr vs =>
    rw [show openAIChoice (.arr vs) = some (.obj (arrIndexFields vs)) from rfl] at h
    injection h with h1
    rw [← h1]
    exact goodV_arrIndexFields (by simpa [goodV] using hg)

/-- the openAI choice sweep is settled after one pass. -/
theorem openAIChoice_idem : ∀ {c c' : JsVal}, openAIChoice c = some c' →
    openAIChoice c' = some c' := by
  intro c c' h
  cases c with
  | null => simp [openAIChoice] at h
  | obj ms =>
    rw [show openAIChoice (.obj ms)
        = some (.obj (ms.filter fun p => p.1 ≠ messageKey)) from rfl] at h
    injection h with h1
    rw [← h1]
    rw [show openAIChoice (.obj (ms.filter fun p => p.1 ≠ messageKey))
        = some (.obj ((ms.filter fun p => p.1 ≠ messageKey).filter
            fun p => p.1 ≠ messageKey)) from rfl]
    rw [filter_ne_idem]
  | str s =>
    rw [show openAIChoice (.str s) = some (.obj (strIndexFields s)) from rfl] at h
    injection h with h1
    rw [← h1]
    rw [show openAIChoice (.obj (strIndexFields s))
        = some (.obj ((strIndexFields s).filter fun p => p.1 ≠ messageKey)) from rfl]
    rw [filter_strIndexFields]
  | bool b =>
    rw [show openAIChoice (.bool b) = some (.obj []) from rfl] at h
    injection h with h1
    rw [← h1]
    rfl
  | num n =>
    rw [show openAIChoice (.num n) = some (.obj []) from rfl] at h
    injection h with h1
    rw [← h1]
    rfl
  | arr vs =>
    rw [show openAIChoice (.arr vs) = some (.obj (arrIndexFields vs)) from rfl] at h
    injection h with h1
    rw [← h1]
    rw [show openAIChoice (.obj (arrIndexFields vs))
        = some (.obj ((arrIndexFields vs).filter fun p => p.1 ≠ messageKey)) from rfl]
    rw [filter_arrIndexFields]

/-- a successful openAI sweep of good choices yields good choices. -/
theorem mapM_openAIChoice_good : ∀ {cs cs' : List JsVal}, goodElems cs = true →
    cs.mapM openAIChoice = some cs' → goodElems cs' = true
  | [], cs', _, h => by
    rw [mapM_opt_nil] at h
    injection h with h1
    rw [← h1]
    simp [goodElems]
  | c :: cs, res, hg, h => by
    obtain ⟨c', cs', hc, hcs, rfl⟩ := mapM_opt_cons_inv h
    have hgs : goodV c = true ∧ goodElems cs = true := by simpa [goodElems] using hg
    have g1 := openAIChoice_good hgs.1 hc
    have g2 := mapM_openAIChoice_good hgs.2 hcs
    simp [goodElems, g1, g2]

/-- a second openAI sweep over swept choices returns them unchanged. -/
theorem mapM_openAIChoice_idem : ∀ {cs cs' : List JsVal},
    cs.mapM openAIChoice = some cs' → cs'.mapM openAIChoice = some cs'
  | [], cs', h => by
    rw [mapM_opt_nil] at h
    injection h with h1
    rw [← h1]
    exact mapM_opt_nil _
  | c :: cs, res, h => by
    obtain ⟨c', cs', hc, hcs, rfl⟩ := mapM_opt_cons_inv h
    rw [mapM_opt_cons, openAIChoice_idem hc, mapM_openAIChoice_idem hcs]
    rfl

/-- the openAI line transform without the data mark: identity. -/
theorem openAITransformLine_not_data {line : List Char}
    (h : ¬dataMark.isPrefixOf line = true) : openAITransformLine line = line := by
  rw [openAITransformLine, if_neg h]

/-- the openAI line transform on the sentinel payload: identity. -/
theorem openAITransformLine_done {line : List Char}
    (hp : dataMark.isPrefixOf line = true)
    (hd : trimChars (line.drop 6) = doneBody) : openAITransformLine line = line := by
  rw [openAITransformLine, if_pos hp]
  dsimp only
  rw [if_pos hd]

/-- the openAI line transform on an unparsable payload: identity. -/
theorem openAITransformLine_noparse {line : List Char}
    (hp : dataMark.isPrefixOf line = true)
    (hd : trimChars (line.drop 6) ≠ doneBody)
    (hn : parseJson (trimChars (line.drop 6)) = none) : openAITransformLine line = line := by
  rw [openAITransformLine, if_pos hp]
  dsimp only
  rw [if_neg hd, hn]

/-- the openAI line transform on a parsed null payload: the choices read
raises, the catch keeps the line. -/
theorem openAITransformLine_null {line : List Char}
    (hp : dataMark.isPrefixOf line = true)
    (hd : trimChars (line.drop 6) ≠ doneBody)
    (hv : parseJson (trimChars (line.drop 6)) = some .null) :
    openAITransformLine line = line := by
  rw [openAITransformLine, if_pos hp]
  dsimp only
  rw [if_neg hd, hv]

/-- the openAI line transform with a choices array and a clean sweep. -/
theorem openAITransformLine_arr {line : List Char} {v : JsVal} {cs cs' : List JsVal}
    (hp : dataMark.isPrefixOf line = true)
    (hd : trimChars (line.drop 6) ≠ doneBody)
    (hv : parseJson (trimChars (line.drop 6)) = some v)
    (hgf : getField v choicesKey = some (.arr cs))
    (hmm : cs.mapM openAIChoice = some cs') :
    openAITransformLine line = dataMark ++ serializeV (setField v choicesKey (.arr cs')) := by
  obtain ⟨ms, rfl⟩ := getField_some_obj hgf
  rw [openAITransformLine, if_pos hp]
  dsimp only
  rw [if_neg hd, hv]
  dsimp only
  rw [hgf]
  dsimp only
  rw [hmm]

/-- the openAI line transform with a choices array whose sweep raises:
identity. -/
theorem openAITransformLine_sweep_fail {line : List Char} {v : JsVal} {cs : List JsVal}
    (hp : dataMark.isPrefixOf line = true)
    (hd : trimChars (line.drop 6) ≠ doneBody)
    (hv : parseJson (trimChars (line.drop 6)) = some v)
    (hgf : getField v choicesKey = some (.arr cs))
    (hmm : cs.mapM openAIChoice = none) : openAITransformLine line = line := by
  obtain ⟨ms, rfl⟩ := getField_some_obj hgf
  rw [openAITransformLine, if_pos hp]
  dsimp only
  rw [if_neg hd, hv]
  dsimp only
  rw [hgf]
  dsimp only
  rw [hmm]

/-- the openAI line transform on a parsed non-null payload without a choices
array: plain re-emission. -/
theorem openAITransformLine_nonarr {line : List Char} {v : JsVal}
    (hp : dataMark.isPrefixOf line = true)
    (hd : trimChars (line.drop 6) ≠ doneBody)
    (hv : parseJson (trimChars (line.drop 6)) = some v)
    (hnn : v ≠ .null)
    (hna : ∀ cs : List JsVal, getField v choicesKey ≠ some (.arr cs)) :
    openAITransformLine line = dataMark ++ serializeV v := by
  rw [openAITransformLine, if_pos hp]
  dsimp only
  rw [if_neg hd, hv]
  cases v with
  | null => exact absurd rfl hnn
  | bool b => rfl
  | num n => rfl
  | str s => rfl
  | arr vs => rfl
  | obj ms =>
    dsimp only
    cases hg : getField (.obj ms) choicesKey with
    | none => rfl
    | some x =>
      cases x with
      | arr cs => exact absurd hg (hna cs)
      | null => rfl
      | bool b => rfl
      | num n => rfl
      | str s => rfl
      | obj ms2 => rfl

/-- a second openAI pass over a re-emitted payload without choices is
stable. -/
theorem openAITransformLine_idem_nonarr_aux {line : List Char} {v : JsVal}
    (hp : dataMark.isPrefixOf line = true)
    (hd : trimChars (line.drop 6) ≠ doneBody)
    (hv : parseJson (trimChars (line.drop 6)) = some v)
    (hgood : goodV v = true) (hnn : v ≠ .null)
    (hna : ∀ cs : List JsVal, getField v choicesKey ≠ some (.arr cs)) :
    openAITransformLine (openAITransformLine line) = openAITransformLine line := by
  have h1 := openAITransformLine_nonarr hp hd hv hnn hna
  have htrim : trimChars ((dataMark ++ serializeV v).drop 6) = serializeV v := by
    rw [dataMark_drop6]
    exact trimChars_serializeV v
  have h2 := openAITransformLine_nonarr (dataMark_isPrefixOf _)
    (by rw [htrim]; exact serializeV_ne_doneBody v)
    (by rw [htrim]; exact parseJson_serializeV v hgood) hnn hna
  rw [h1, h2]

/-- one pass of the openAI line transform settles it. -/
theorem openAITransformLine_idem (line : List Char) :
    openAITransformLine (openAITransformLine line) = openAITransformLine line := by
  by_cases hp : dataMark.isPrefixOf line = true
  · by_cases hd : trimChars (line.drop 6) = doneBody
    · rw [openAITransformLine_done hp hd]
      exact openAITransformLine_done hp hd
    · cases hpj : parseJson (trimChars (line.drop 6)) with
      | none =>
        rw [openAITransformLine_noparse hp hd hpj]
        exact openAITransformLine_noparse hp hd hpj
      | some v =>
        have hgood : goodV v = true := parseJson_good hpj
        by_cases hnull : v = JsVal.null
        · subst hnull
          rw [openAITransformLine_null hp hd hpj]
          exact openAITransformLine_null hp hd hpj
        · cases hgf : getField v choicesKey with
          | some x =>
            cases x with
            | arr cs =>
              obtain ⟨ms, rfl⟩ := getField_some_obj hgf
              cases hmm : cs.mapM openAIChoice with
              | some cs' =>
                have hgcs : goodElems cs = true := by
                  have hmem := lookupKey_mem ms choicesKey (.arr cs) hgf
                  have := (goodMembers_iff ms).mp (by
                    simp only [goodV, Bool.and_eq_true] at hgood
                    exact hgood.2) _ hmem
                  simpa [goodV] using this.2
                have hgood' : goodV (setField (.obj ms) choicesKey (.arr cs')) = true := by
                  rw [show setField (.obj ms) choicesKey (.arr cs')
                      = .obj (setKey ms choicesKey (.arr cs')) from rfl]
                  exact goodV_obj_setKey hgood (by decide)
                    (by simpa [goodV] using mapM_openAIChoice_good hgcs hmm)
                have h1 := openAITransformLine_arr hp hd hpj hgf hmm
                have htrim : trimChars ((dataMark
                    ++ serializeV (setField (.obj ms) choicesKey (.arr cs'))).drop 6)
                    = serializeV (setField (.obj ms) choicesKey (.arr cs')) := by
                  rw [dataMark_drop6]
                  exact trimChars_serializeV _
                have hgf2 : getField (setField (.obj ms) choicesKey (.arr cs')) choicesKey
                    = some (.arr cs') := by
                  rw [show setField (.obj ms) choicesKey (.arr cs')
                      = .obj (setKey ms choicesKey (.arr cs')) from rfl]
                  exact lookupKey_setKey ms choicesKey (.arr cs')
                have h2 := openAITransformLine_arr (dataMark_isPrefixOf _)
                  (by rw [htrim]; exact serializeV_ne_doneBody _)
                  (by rw [htrim]; exact parseJson_serializeV _ hgood') hgf2
                  (mapM_openAIChoice_idem hmm)
                rw [h1, h2]
                have hself : setField (setField (.obj ms) choicesKey (.arr cs')) choicesKey
                    (.arr cs') = setField (.obj ms) choicesKey (.arr cs') := by
                  rw [show setField (.obj ms) choicesKey (.arr cs')
                      = .obj (setKey ms choicesKey (.arr cs')) from rfl]
                  rw [show setField (.obj (setKey ms choicesKey (.arr cs'))) choicesKey
                      (.arr cs') = .obj (setKey (setKey ms choicesKey (.arr cs'))
                        choicesKey (.arr cs')) from rfl]
                  rw [setKey_self _ _ _ (lookupKey_setKey ms choicesKey (.arr cs'))]
                rw [hself]
              | none =>
                rw [openAITransformLine_sweep_fail hp hd hpj hgf hmm]
                exact openAITransformLine_sweep_fail hp hd hpj hgf hmm
            | null =>
              exact openAITransformLine_idem_nonarr_aux hp hd hpj hgood hnull
                (fun cs hcon => by
                  rw [hgf] at hcon
                  injection hcon with hx
                  exact JsVal.noConfusion hx)
            | bool b =>
              exact openAITransformLine_idem_nonarr_aux hp hd hpj hgood hnull
                (fun cs hcon => by
                  rw [hgf] at hcon
                  injection hcon with hx
                  exact JsVal.noConfusion hx)
            | num n =>
              exact openAITransformLine_idem_nonarr_aux hp hd hpj hgood hnull
                (fun cs hcon => by
                  rw [hgf] at hcon
                  injection hcon with hx
                  exact JsVal.noConfusion hx)
            | str s =>
              exact openAITransformLine_idem_nonarr_aux hp hd hpj hgood hnull
                (fun cs hcon => by
                  rw [hgf] at hcon
                  injection hcon with hx
                  exact JsVal.noConfusion hx)
            | obj ms2 =>
              exact openAITransformLine_idem_nonarr_aux hp hd hpj hgood hnull
                (fun cs hcon => by
                  rw [hgf] at hcon
                  injection hcon with hx
                  exact JsVal.noConfusion hx)
          | none =>
            exact openAITransformLine_idem_nonarr_aux hp hd hpj hgood hnull
              (fun cs hcon => by
                rw [hgf] at hcon
                exact Option.noConfusion hcon)
  · rw [openAITransformLine_not_data hp]
    exact openAITransformLine_not_data hp

/-- past both lists every step compares 0 with 0 and the loop exhausts to
supported. -/
theorem cmpLoop_out : ∀ (rem : Nat) (cs ms : List Int) (i : Nat),
    cs.length ≤ i → ms.length ≤ i → cmpLoop cs ms i rem = true
  | 0, _, _, _, _, _ => rfl
  | rem + 1, cs, ms, i, h1, h2 => by
    rw [cmpLoop]
    rw [List.getD_eq_default _ _ h1, List.getD_eq_default _ _ h2]
    rw [if_neg (by omega), if_neg (by omega)]
    exact cmpLoop_out rem cs ms (i + 1) (by omega) (by omega)

/-- the loop count does not matter once it covers both lists. -/
theorem cmpLoop_ext : ∀ (rem₁ rem₂ : Nat) (cs ms : List Int) (i : Nat),
    max cs.length ms.length ≤ i + rem₁ → max cs.length ms.length ≤ i + rem₂ →
    cmpLoop cs ms i rem₁ = cmpLoop cs ms i rem₂
  | 0, rem₂, cs, ms, i, h1, _ => by
    rw [show cmpLoop cs ms i 0 = true from rfl]
    exact (cmpLoop_out rem₂ cs ms i (by omega) (by omega)).symm
  | rem₁ + 1, 0, cs, ms, i, _, h2 => by
    rw [show cmpLoop cs ms i 0 = true from rfl]
    exact cmpLoop_out (rem₁ + 1) cs ms i (by omega) (by omega)
  | rem₁ + 1, rem₂ + 1, cs, ms, i, h1, h2 => by
    rw [cmpLoop, cmpLoop]
    by_cases hgt : cs.getD i 0 > ms.getD i 0
    · rw [if_pos hgt, if_pos hgt]
    · rw [if_neg hgt, if_neg hgt]
      by_cases hlt : cs.getD i 0 < ms.getD i 0
      · rw [if_pos hlt, if_pos hlt]
      · rw [if_neg hlt, if_neg hlt]
        exact cmpLoop_ext rem₁ rem₂ cs ms (i + 1) (by omega) (by omega)

/-- every position of a zero-padded tail reads 0, like a missing one. -/
theorem getD_replicate_zero (n j : Nat) : (List.replicate n (0 : Int)).getD j 0 = 0 := by
  by_cases h : j < n
  · rw [List.getD_eq_getElem _ _ (by simpa using h)]
    simp
  · rw [List.getD_eq_default _ _ (by simpa using h)]

/-- zero padding reads back exactly as the or-default on a missing index. -/
theorem getD_append_zeros (ms : List Int) (n i : Nat) :
    (ms ++ List.replicate n 0).getD i 0 = ms.getD i 0 := by
  by_cases h : i < ms.length
  · rw [List.getD_append _ _ _ _ h]
  · rw [List.getD_eq_default ms _ (by omega)]
    rw [List.getD_append_right]
    · exact getD_replicate_zero n _
    · omega

/-- zero padding on the right list never changes the loop. -/
theorem cmpLoop_pad_right : ∀ (rem : Nat) (cs ms : List Int) (n i : Nat),
    cmpLoop cs (ms ++ List.replicate n 0) i rem = cmpLoop cs ms i rem
  | 0, _, _, _, _ => rfl
  | rem + 1, cs, ms, n, i => by
    rw [cmpLoop, cmpLoop, getD_append_zeros]
    by_cases hgt : cs.getD i 0 > ms.getD i 0
    · rw [if_pos hgt, if_pos hgt]
    · rw [if_neg hgt, if_neg hgt]
      by_cases hlt : cs.getD i 0 < ms.getD i 0
      · rw [if_pos hlt, if_pos hlt]
      · rw [if_neg hlt, if_neg hlt]
        exact cmpLoop_pad_right rem cs ms n (i + 1)

/-- zero padding on the left list never changes the loop. -/
theorem cmpLoop_pad_left : ∀ (rem : Nat) (cs ms : List Int) (n i : Nat),
    cmpLoop (cs ++ List.replicate n 0) ms i rem = cmpLoop cs ms i rem
  | 0, _, _, _, _ => rfl
  | rem + 1, cs, ms, n, i => by
    rw [cmpLoop, cmpLoop, getD_append_zeros]
    by_cases hgt : cs.getD i 0 > ms.getD i 0
    · rw [if_pos hgt, if_pos hgt]
    · rw [if_neg hgt, if_neg hgt]
      by_cases hlt : cs.getD i 0 < ms.getD i 0
      · rw [if_pos hlt, if_pos hlt]
      · rw [if_neg hlt, if_neg hlt]
        exact cmpLoop_pad_left rem cs ms n (i + 1)

/-- shifting the index down one cons on each side is the tail loop. -/
theorem cmpLoop_shift : ∀ (rem : Nat) (c m : Int) (cs ms : List Int) (i : Nat),
    cmpLoop (c :: cs) (m :: ms) (i + 1) rem = cmpLoop cs ms i rem
  | 0, _, _, _, _, _ => rfl
  | rem + 1, c, m, cs, ms, i => by
    rw [cmpLoop, cmpLoop, List.getD_cons_succ, List.getD_cons_succ]
    by_cases hgt : cs.getD i 0 > ms.getD i 0
    · rw [if_pos hgt, if_pos hgt]
    · rw [if_neg hgt, if_neg hgt]
      by_cases hlt : cs.getD i 0 < ms.getD i 0
      · rw [if_pos hlt, if_pos hlt]
      · rw [if_neg hlt, if_neg hlt]
        exact cmpLoop_shift rem c m cs ms (i + 1)

/-- a list always matches itself: exhaustion answers supported. -/
theorem cmpLoop_refl : ∀ (rem : Nat) (cs : List Int) (i : Nat),
    cmpLoop cs cs i rem = true
  | 0, _, _ => rfl
  | rem + 1, cs, i => by
    rw [cmpLoop]
    rw [if_neg (by omega), if_neg (by omega)]
    exact cmpLoop_refl rem cs (i + 1)

/-- exhausting endpoints that raise or fail falls back to the default record. -/
theorem getFoundryModelDetailsP1_allFail :
    ∀ (fs : List (Fetch ModelDetails)) (modelId : List Char),
      (∀ f ∈ fs, f = .threw ∨ f = .notOk) →
      getFoundryModelDetailsP1 fs modelId = fallbackDetailsP1 modelId
  | [], _, _ => rfl
  | f :: fs, modelId, h => by
    cases f with
    | ok d =>
      rcases h _ (List.mem_cons_self _ _) with h1 | h1 <;> exact Fetch.noConfusion h1
    | threw =>
      rw [show getFoundryModelDetailsP1 (Fetch.threw :: fs) modelId
          = getFoundryModelDetailsP1 fs modelId from rfl]
      exact getFoundryModelDetailsP1_allFail fs modelId
        (fun g hg => h g (List.mem_cons_of_mem _ hg))
    | notOk =>
      rw [show getFoundryModelDetailsP1 (Fetch.notOk :: fs) modelId
          = getFoundryModelDetailsP1 fs modelId from rfl]
      exact getFoundryModelDetailsP1_allFail fs modelId
        (fun g hg => h g (List.mem_cons_of_mem _ hg))

/-- C1 (corrected): the two normalizer variants differ on the claimed rule.
The SSE-endpoint variant removes message from an object choice exactly when
the delta and message property reads are both truthy and keeps the choice
unchanged otherwise; the openAI-endpoint variant removes message from every
object choice unconditionally, delta present or not.  At line level a parsed
payload with a cleanly swept choices array is re-emitted with that swept
array written back. -/
theorem claim_c1 :
    (∀ ms : List (List Char × JsVal),
        (truthyOpt (getField (.obj ms) deltaKey)
          && truthyOpt (getField (.obj ms) messageKey)) = true →
        sseChoice (.obj ms) = some (removeField (.obj ms) messageKey))
    ∧ (∀ ms : List (List Char × JsVal),
        (truthyOpt (getField (.obj ms) deltaKey)
          && truthyOpt (getField (.obj ms) messageKey)) = false →
        sseChoice (.obj ms) = some (.obj ms))
    ∧ (∀ ms : List (List Char × JsVal),
        openAIChoice (.obj ms) = some (.obj (ms.filter fun p => p.1 ≠ messageKey)))
    ∧ (∀ (line : List Char) (v : JsVal) (cs cs' : List JsVal),
        dataMark.isPrefixOf line = true ∧ line ≠ doneLine →
        parseJson (line.drop 6) = some v →
        getField v choicesKey = some (.arr cs) →
        cs.mapM sseChoice = some cs' →
        sseTransformLine line = dataMark ++ serializeV (setField v choicesKey (.arr cs'))) := by
  refine ⟨?_, ?_, fun ms => rfl, fun line v cs cs' hp hv hgf hmm =>
    sseTransformLine_arr hp hv hgf hmm⟩
  · intro ms h
    simp only [sseChoice]
    rw [if_pos h]
  · intro ms h
    simp only [sseChoice]
    rw [if_neg (by simp [h])]

/-- C1 counterexample: a line whose single choice carries message but no
delta still has its message removed by the openAI-endpoint normalizer, so a
choice without both fields is not left unchanged. -/
theorem claim_c1_counterexample :
    openAITransformLine (dataMark ++ serializeV (.obj [(choicesKey,
        .arr [.obj [(messageKey, .str ['h', 'i'])]])]))
      = dataMark ++ serializeV (.obj [(choicesKey, .arr [.obj []])])
    ∧ truthyOpt (getField (.obj [(messageKey, .str ['h', 'i'])]) deltaKey) = false :=
  ⟨by decide, by decide⟩

/-- C2 (corrected): under _transformSSEData a line without the data mark, the
sentinel line, a line with an unparsable payload and a line whose payload
parses to null (its choices read raises into the catch) pass through
byte-identical; a parsable non-null payload without a choices array is
re-emitted from JSON.stringify and need not equal the input bytes, as the
reformatting conjunct shows; and the _transformLine variant trims first, so
its pass-through is the trimmed line, byte-identical only when the line is
already trimmed. -/
theorem claim_c2 :
    (∀ line : List Char, ¬(dataMark.isPrefixOf line = true ∧ line ≠ doneLine) →
        sseTransformLine line = line)
    ∧ (∀ line : List Char, dataMark.isPrefixOf line = true ∧ line ≠ doneLine →
        parseJson (line.drop 6) = none → sseTransformLine line = line)
    ∧ (∀ line : List Char, dataMark.isPrefixOf line = true ∧ line ≠ doneLine →
        parseJson (line.drop 6) = some .null → sseTransformLine line = line)
    ∧ (∀ (line : List Char) (v : JsVal),
        dataMark.isPrefixOf line = true ∧ line ≠ doneLine →
        parseJson (line.drop 6) = some v → v ≠ .null →
        (∀ cs : List JsVal, getField v choicesKey ≠ some (.arr cs)) →
        sseTransformLine line = dataMark ++ serializeV v)
    ∧ sseTransformLine (dataMark ++ [' ', 'n', 'u', 'l', 'l'])
        = dataMark ++ [' ', 'n', 'u', 'l', 'l']
    ∧ sseTransformLine (dataMark ++ ['\x7b', '"', 'a', '"', ':', ' ', '1', '\x7d'])
        = dataMark ++ ['\x7b', '"', 'a', '"', ':', '1', '\x7d']
    ∧ (∀ line : List Char, dataMark.isPrefixOf (trimChars line) = false →
        foundryTransformLine line = trimChars line)
    ∧ foundryTransformLine (' ' :: doneLine) = doneLine :=
  ⟨fun _ h => sseTransformLine_not_data h,
   fun _ hp hn => sseTransformLine_noparse hp hn,
   fun _ hp hv => sseTransformLine_null hp hv,
   fun _ _ hp hv hnn hna => sseTransformLine_nonarr hp hv hnn hna,
   by decide, by decide,
   fun line h => by
     rw [foundryTransformLine]
     rw [if_pos (by rw [h]; exact Bool.false_ne_true)],
   by decide⟩

/-- C2 counterexample: a well-formed JSON payload without a choices array is
reformatted, not passed through byte-for-byte (the space after the colon is
dropped), and the _transformLine variant returns the trimmed line, not the
input bytes. -/
theorem claim_c2_counterexample :
    sseTransformLine (dataMark ++ ['\x7b', '"', 'a', '"', ':', ' ', '1', '\x7d'])
      = dataMark ++ ['\x7b', '"', 'a', '"', ':', '1', '\x7d']
    ∧ dataMark ++ ['\x7b', '"', 'a', '"', ':', ' ', '1', '\x7d']
      ≠ dataMark ++ ['\x7b', '"', 'a', '"', ':', '1', '\x7d']
    ∧ foundryTransformLine (' ' :: doneLine) = doneLine
    ∧ (' ' :: doneLine) ≠ doneLine :=
  ⟨by decide, by decide, by decide, by decide⟩

/-- C3 (corrected): the _transformSSEData normalizer is idempotent on every
input byte sequence, and the openAI-endpoint transform is idempotent on each
complete line; but the openAI stream body is not idempotent on byte
sequences: its end handler flushes a trailing unterminated line raw with an
appended newline, so a second pass sees a complete line and rewrites it. -/
theorem claim_c3 :
    (∀ data : List Char, transformSSEData (transformSSEData data) = transformSSEData data)
    ∧ (∀ line : List Char,
        openAITransformLine (openAITransformLine line) = openAITransformLine line)
    ∧ transformFoundryLocal (dataMark ++ ['\x7b', '"', 'a', '"', ':', ' ', '1', '\x7d'])
        = (dataMark ++ ['\x7b', '"', 'a', '"', ':', ' ', '1', '\x7d']) ++ ['\n']
    ∧ transformFoundryLocal ((dataMark ++ ['\x7b', '"', 'a', '"', ':', ' ', '1', '\x7d'])
          ++ ['\n'])
        = (dataMark ++ ['\x7b', '"', 'a', '"', ':', '1', '\x7d']) ++ ['\n']
    ∧ transformFoundryLocal (transformFoundryLocal
          (dataMark ++ ['\x7b', '"', 'a', '"', ':', ' ', '1', '\x7d']))
        ≠ transformFoundryLocal (dataMark ++ ['\x7b', '"', 'a', '"', ':', ' ', '1', '\x7d']) :=
  ⟨transformSSEData_idem, openAITransformLine_idem, by decide, by decide, by decide⟩

/-- C3 counterexample: one unterminated data line goes through the openAI
stream body raw with a newline appended on the first pass and is rewritten on
the second pass, so the stream-level normalizer is not idempotent on that
byte sequence. -/
theorem claim_c3_counterexample :
    transformFoundryLocal (transformFoundryLocal
        (dataMark ++ ['\x7b', '"', 'a', '"', ':', ' ', '1', '\x7d']))
      ≠ transformFoundryLocal (dataMark ++ ['\x7b', '"', 'a', '"', ':', ' ', '1', '\x7d'])
    ∧ transformFoundryLocal (dataMark ++ ['\x7b', '"', 'a', '"', ':', ' ', '1', '\x7d'])
        = (dataMark ++ ['\x7b', '"', 'a', '"', ':', ' ', '1', '\x7d']) ++ ['\n'] :=
  ⟨by decide, by decide⟩

/-- C4 (corrected): a raised primary probe reaches the catch and consults the
models endpoint, whose success heals the check; an unhealthy status body does
the same; but a failure HTTP status on the primary probe falls through to the
closing raise without consulting the models endpoint, so a succeeding
secondary does not heal it. -/
theorem claim_c4 :
    checkFoundryService .throws .ok = .ok ()
    ∧ checkFoundryService .throws .notOk = .error .notResponding
    ∧ checkFoundryService .throws .throws = .error .notRunning
    ∧ (∀ (st : List Char) (ver : Option (List Char)), statusOkOrHealthy st = false →
        checkFoundryService (.ok st ver) .ok = .ok ())
    ∧ (∀ ver : Option (List Char), checkFoundryService (.ok okWord ver) .throws = .ok ())
    ∧ checkFoundryService .notOk .ok = .error .notResponding := by
  refine ⟨rfl, rfl, rfl, ?_, fun ver => rfl, rfl⟩
  intro st ver h
  simp [checkFoundryService, h]

/-- C4 counterexample: with a failure HTTP status from the primary probe and
a models endpoint that would succeed, the check still raises — while the same
succeeding secondary heals a raised primary. -/
theorem claim_c4_counterexample :
    checkFoundryService .notOk .ok = .error .notResponding
    ∧ checkFoundryService .throws .ok = .ok () :=
  ⟨rfl, rfl⟩

/-- C5 (corrected): the SDK variant's getModelInfo propagates one and the
same wrapped error for every metadata failure — a raised SDK call and a
model missing from the catalog alike — and never falls back; the REST
variant always falls back to the defaulted record and never raises a
not-found error. -/
theorem claim_c5 :
    getModelInfoP5 .threw = .error .unableToGetInfo
    ∧ getModelInfoP5 (.resolved none) = .error .unableToGetInfo
    ∧ (∀ i : FoundryModelInfo, getModelInfoP5 (.resolved (some i)) = .ok (capsOfInfoP5 i))
    ∧ (∀ modelId : List Char, getModelInfoTs .threw modelId
        = capsOfDetails modelId (fallbackDetails modelId))
    ∧ (∀ modelId : List Char, getModelInfoTs .notOk modelId
        = capsOfDetails modelId (fallbackDetails modelId)) :=
  ⟨rfl, rfl, fun _ => rfl, fun _ => rfl, fun _ => rfl⟩

/-- C5 counterexample: a metadata failure that is not a missing model fails
instead of defaulting, and the missing-model failure raises the very same
error, not a distinguished not-found one. -/
theorem claim_c5_counterexample :
    getModelInfoP5 .threw = .error .unableToGetInfo
    ∧ getModelInfoP5 (.resolved none) = .error .unableToGetInfo
    ∧ getModelInfoTs .threw ['m'] = capsOfDetails ['m'] (fallbackDetails ['m']) :=
  ⟨rfl, rfl, rfl⟩

/-- C6 (corrected): the listing preserves the service-check raise and turns a
raised or failed models fetch into the generic error; the data read on a null
listing body raises into the catch as the generic error; a non-null body
whose data is not an array returns the empty map rather than failing; an
entry whose id is the empty string is skipped and the remaining entries are
returned, as the concrete three-entry catalog shows; and a null catalog entry
raises inside the loop and fails the whole listing with the generic error. -/
theorem claim_c6 :
    (∀ (e : CheckError) (mf : Fetch JsVal) (resolve : List Char → Except Unit ChatModelInfo),
        getAllModelsP1 ⟨.error e, mf, resolve⟩ = .error (.serviceCheck e))
    ∧ (∀ resolve : List Char → Except Unit ChatModelInfo,
        getAllModelsP1 ⟨.ok (), .threw, resolve⟩ = .error .generic)
    ∧ (∀ resolve : List Char → Except Unit ChatModelInfo,
        getAllModelsP1 ⟨.ok (), .notOk, resolve⟩ = .error .generic)
    ∧ (∀ resolve : List Char → Except Unit ChatModelInfo,
        getAllModelsP1 ⟨.ok (), .ok .null, resolve⟩ = .error .generic)
    ∧ (∀ (body : JsVal) (resolve : List Char → Except Unit ChatModelInfo),
        body ≠ .null →
        (∀ entries : List JsVal, getField body dataKey ≠ some (.arr entries)) →
        getAllModelsP1 ⟨.ok (), .ok body, resolve⟩ = .ok [])
    ∧ (∀ (resolve : List Char → Except Unit ChatModelInfo) (rest : List JsVal)
        (acc : List (List Char × KnownModelP1)) (ms : List (List Char × JsVal)),
        getField (.obj ms) idKey = some (.str []) →
        processEntries resolve (.obj ms :: rest) acc = processEntries resolve rest acc)
    ∧ (∀ (resolve : List Char → Except Unit ChatModelInfo) (rest : List JsVal)
        (acc : List (List Char × KnownModelP1)),
        processEntries resolve (.null :: rest) acc = .error ())
    ∧ getAllModelsP1 ⟨.ok (), .ok (.obj [(dataKey, .arr [
          .obj [(idKey, .str ['m', '1'])], .obj [(idKey, .str [])],
          .obj [(idKey, .str ['m', '2'])]])]),
        fun s => .ok ⟨s, none, .null, .null⟩⟩
        = .ok [(['m', '1'], knownOfChatInfo ⟨['m', '1'], none, .null, .null⟩),
               (['m', '2'], knownOfChatInfo ⟨['m', '2'], none, .null, .null⟩)]
    ∧ (∀ (resolve : List Char → Except Unit ChatModelInfo) (more : List JsVal),
        getAllModelsP1 ⟨.ok (), .ok (.obj [(dataKey, .arr (.null :: more))]), resolve⟩
          = .error .generic) := by
  refine ⟨fun e mf resolve => rfl, fun resolve => rfl, fun resolve => rfl,
    fun resolve => rfl, ?_, ?_, fun resolve rest acc => rfl, rfl, fun resolve more => rfl⟩
  · intro body resolve hnn h
    cases body with
    | null => exact absurd rfl hnn
    | bool b => rfl
    | num n => rfl
    | str s => rfl
    | arr vs => rfl
    | obj ms =>
      rw [getAllModelsP1]
      dsimp only
      cases hg : getField (.obj ms) dataKey with
      | none => rfl
      | some x =>
        cases x with
        | arr entries => exact absurd hg (h entries)
        | null => rfl
        | bool b => rfl
        | num n => rfl
        | str s => rfl
        | obj ms2 => rfl
  · intro resolve rest acc ms h
    rw [processEntries]
    · rw [h]
      dsimp only
      rw [if_pos rfl]
    · intro hcon
      exact JsVal.noConfusion hcon

/-- C6 counterexample: a structurally invalid listing (data a string, not an
array) succeeds with the empty map instead of failing, and a single null
catalog entry fails the whole listing with the generic error instead of
being skipped. -/
theorem claim_c6_counterexample :
    getAllModelsP1 ⟨.ok (), .ok (.obj [(dataKey, .str ['x'])]),
        fun _ => .error ()⟩ = .ok []
    ∧ getAllModelsP1 ⟨.ok (), .ok (.obj [(dataKey, .arr [.null])]),
        fun _ => .error ()⟩ = .error .generic :=
  ⟨rfl, rfl⟩

/-- C7 (corrected): the two getModelInfo variants keep input plus output
tokens equal to the resolved context window, but the part_002 catalog lister
hardcodes 4096 for both limits, so its records sum to 8192, twice the 4096
default window. -/
theorem claim_c7 :
    (∀ (modelId : List Char) (d : ModelDetails),
        (capsOfDetails modelId d).maxInputTokens + (capsOfDetails modelId d).maxOutputTokens
          = resolvedContextWindow d)
    ∧ (∀ i : FoundryModelInfo,
        (capsOfInfoP5 i).maxInputTokens + (capsOfInfoP5 i).maxOutputTokens = 4096)
    ∧ (∀ m : CatalogModel,
        (knownModelP2 m).maxInputTokens + (knownModelP2 m).maxOutputTokens = 8192) := by
  refine ⟨?_, ?_, ?_⟩
  · intro modelId d
    exact sub_add_cancel _ _
  · intro i
    exact sub_add_cancel _ _
  · intro m
    norm_num [knownModelP2]

/-- C7 counterexample: one part_002 catalog record sums its token limits to
8192, which is not the 4096 default context window. -/
theorem claim_c7_counterexample :
    (knownModelP2 ⟨['m'], ['m'], [], []⟩).maxInputTokens
        + (knownModelP2 ⟨['m'], ['m'], [], []⟩).maxOutputTokens = 8192
    ∧ ((8192 : Rat) ≠ 4096) := by
  constructor
  · norm_num [knownModelP2]
  · norm_num

/-- C8: the version gate compares component-wise and numerically: the string
level is the split-and-parse of both versions, a greater first difference
accepts, a smaller one rejects, equal components fall to the rest, zero
padding on either side — the missing-components-are-0 rule — never changes
the verdict, a version equals itself, and the three quoted examples come out
as the spec says against the 1.0.0 minimum. -/
theorem claim_c8 :
    (∀ s : List Char, isVersionSupported s
        = cmpParts (verParts s) (verParts minimumFoundryVersion))
    ∧ (∀ (c m : Int) (cs ms : List Int), c > m → cmpParts (c :: cs) (m :: ms) = true)
    ∧ (∀ (c m : Int) (cs ms : List Int), c < m → cmpParts (c :: cs) (m :: ms) = false)
    ∧ (∀ (c : Int) (cs ms : List Int), cmpParts (c :: cs) (c :: ms) = cmpParts cs ms)
    ∧ (∀ (cs ms : List Int) (n m : Nat),
        cmpParts (cs ++ List.replicate n 0) (ms ++ List.replicate m 0) = cmpParts cs ms)
    ∧ (∀ cs : List Int, cmpParts cs cs = true)
    ∧ isVersionSupported ['1', '.', '2', '.', '0'] = true
    ∧ isVersionSupported ['0', '.', '9', '.', '9'] = false
    ∧ isVersionSupported ['1', '.', '0'] = true := by
  refine ⟨fun s => rfl, ?_, ?_, ?_, ?_, ?_, by decide, by decide, by decide⟩
  · intro c m cs ms hgt
    rw [cmpParts]
    simp only [List.length_cons]
    rw [show max (cs.length + 1) (ms.length + 1) = max cs.length ms.length + 1 from by
      omega]
    rw [cmpLoop, List.getD_cons_zero, List.getD_cons_zero, if_pos hgt]
  · intro c m cs ms hlt
    rw [cmpParts]
    simp only [List.length_cons]
    rw [show max (cs.length + 1) (ms.length + 1) = max cs.length ms.length + 1 from by
      omega]
    rw [cmpLoop, List.getD_cons_zero, List.getD_cons_zero,
      if_neg (by omega), if_pos hlt]
  · intro c cs ms
    rw [cmpParts, cmpParts]
    simp only [List.length_cons]
    rw [show max (cs.length + 1) (ms.length + 1) = max cs.length ms.length + 1 from by
      omega]
    rw [cmpLoop, List.getD_cons_zero, List.getD_cons_zero,
      if_neg (by omega), if_neg (by omega)]
    exact cmpLoop_shift _ c c cs ms 0
  · intro cs ms n m
    rw [cmpParts, cmpParts]
    rw [cmpLoop_pad_right, cmpLoop_pad_left]
    have h1 : (cs ++ List.replicate n 0).length = cs.length + n := by simp
    have h2 : (ms ++ List.replicate m 0).length = ms.length + m := by simp
    rw [h1, h2]
    exact cmpLoop_ext _ _ cs ms 0 (by omega) (by omega)
  · intro cs
    rw [cmpParts]
    exact cmpLoop_refl _ cs 0

/-- C10: the metadata details helper is total: a raised or failed fetch falls
back to the default record whose name is the model id with context length
4096 and max tokens 2048; the part_001 variant falls back the same way after
every endpoint raises or fails; and capability resolution on a raised fetch
is the capsOfDetails of that fallback, never an error. -/
theorem claim_c10 :
    (∀ modelId : List Char, getFoundryModelDetails .threw modelId = fallbackDetails modelId)
    ∧ (∀ modelId : List Char, getFoundryModelDetails .notOk modelId = fallbackDetails modelId)
    ∧ (∀ modelId : List Char, fallbackDetails modelId
        = { id := modelId, name := some modelId, description := none, capabilities := none,
            context_length := some 4096, max_tokens := some 2048 })
    ∧ (∀ (fs : List (Fetch ModelDetails)) (modelId : List Char),
        (∀ f ∈ fs, f = .threw ∨ f = .notOk) →
        getFoundryModelDetailsP1 fs modelId = fallbackDetailsP1 modelId)
    ∧ (∀ modelId : List Char, getModelInfoTs .threw modelId
        = capsOfDetails modelId (fallbackDetails modelId)) :=
  ⟨fun _ => rfl, fun _ => rfl, fun _ => rfl,
   fun fs modelId h => getFoundryModelDetailsP1_allFail fs modelId h, fun _ => rfl⟩

end FoundryLocal
